import Mathlib

/-!
# Verification of the feishu2md synchronization engine

This development gives a shallow embedding, in Lean 4, of the parts of the
feishu2md repository that its specification makes claims about:

* `utils.SanitizeFileName` (utils/common.go)
* `core.FeishuRateLimiter.Wait` (core/ratelimiter.go)
* `core.Client.GetChildNodes` / `GetWikiNodeList` / `GetAllChildNodes` and
  `Client.DownloadImage` (core/client.go)
* `shouldSkipFile` and the markdown write decision of `downloadDocument`
  (cmd/download.go)
* `deriveCategoryFromPath`, `buildPaths`, the image section of
  `downloadDocument` and the error-collection scheduler of
  `downloadWikiChildren` (cmd/download.go)
* `picgo.BatchUpload` / `picgo.GetCached` (picgo package)

Pure Go functions are translated to executable Lean functions; the Go standard
library functions they call (`filepath.Clean`, `filepath.Join`,
`strings.Split`, `strings.TrimSpace`, `filepath.Base`, `filepath.Ext`) are
ported faithfully (Unix path separator, as used by the repository).  External
effectful collaborators (the Lark HTTP client, the filesystem, the crypto/md5
library, the picgo CLI) are modelled as explicit oracle parameters.  The
concurrent schedulers are modelled as small-step transition systems over
explicit states.  Go's unbounded recursion is modelled with explicit fuel;
`f fuel x = some r` states that the Go execution terminates with result `r`.
-/

namespace Feishu2MD

/-! ## Go standard-library string helpers -/

/-- Go `unicode.IsSpace`: the Unicode White_Space property.  Listed explicitly
(Latin-1 fast path plus the White_Space code points above Latin-1). -/
def goIsSpace (c : Char) : Bool :=
  c = '\t' || c = '\n' || c.toNat = 0x0B || c.toNat = 0x0C || c = '\r' ||
  c = ' ' || c.toNat = 0x85 || c.toNat = 0xA0 ||
  c.toNat = 0x1680 || (0x2000 ≤ c.toNat && c.toNat ≤ 0x200A) ||
  c.toNat = 0x2028 || c.toNat = 0x2029 || c.toNat = 0x202F ||
  c.toNat = 0x205F || c.toNat = 0x3000

/-- Go `strings.TrimSpace`: remove leading and trailing white space. -/
def goTrimSpace (s : String) : String :=
  ⟨((s.data.dropWhile goIsSpace).reverse.dropWhile goIsSpace).reverse⟩

/-- Go `strings.ReplaceAll` for a single-character pattern: substitute every
occurrence of `pat` by `rep` (with a one-character pattern, occurrences
cannot overlap, so `ReplaceAll` is character-wise substitution). -/
def replaceAllChar (s : List Char) (pat : Char) (rep : List Char) : List Char :=
  s.foldr (fun c acc => (if c = pat then rep else [c]) ++ acc) []

/-- The replacement table of `utils.SanitizeFileName` — every pattern is a
single character — in the order the source lists it.  Go iterates the map in
an unspecified order, but no replacement string contains any replaced
character, so the nine `ReplaceAll` passes commute and any order yields the
same result. -/
def sanitizeReplacements : List (Char × String) :=
  [('/', "-"), ('\\', "-"), (':', "-"), ('*', "★"), ('?', "？"),
   ('"', "'"), ('<', "《"), ('>', "》"), ('|', "-")]

/-- `utils.SanitizeFileName` (utils/common.go:33-61): apply the replacement
rules, trim surrounding white space, and fall back to "untitled" when the
result is empty, "." or "..". -/
def sanitizeFileName (title : String) : String :=
  let replaced := sanitizeReplacements.foldl
    (fun s (p : Char × String) => ⟨replaceAllChar s.data p.1 p.2.data⟩) title
  let trimmed := goTrimSpace replaced
  if trimmed = "" ∨ trimmed = "." ∨ trimmed = ".." then "untitled" else trimmed

/-- C10: for every input string, `SanitizeFileName` returns a non-empty name
that is never "." or "..": any input that is empty, whitespace-only, or trims
to "." or ".." is replaced by the default name "untitled", so every derived
local path segment is a usable directory or file name. -/
theorem sanitizeFileName_usable (title : String) :
    sanitizeFileName title ≠ "" ∧ sanitizeFileName title ≠ "." ∧
    sanitizeFileName title ≠ ".." := by
  unfold sanitizeFileName
  set t := goTrimSpace (sanitizeReplacements.foldl
    (fun s (p : Char × String) => ⟨replaceAllChar s.data p.1 p.2.data⟩)
    title) with ht
  by_cases h : t = "" ∨ t = "." ∨ t = ".."
  · simp only [h, if_true]
    refine ⟨by decide, by decide, by decide⟩
  · simp only [h, if_false]
    push_neg at h
    exact ⟨h.1, h.2.1, h.2.2⟩

/-! ## C1: `FeishuRateLimiter.Wait` (core/ratelimiter.go)

`FeishuRateLimiter` holds two independent `golang.org/x/time/rate` limiters.
For the consumption claims we track, per limiter, the number of units consumed
so far.  `rate.Limiter.Wait` is the external collaborator: on success it
consumes one unit; if the caller's context is cancelled while it is waiting,
it cancels its reservation, returns the unit to its own limiter, and reports
an error (so a cancelled `Wait` leaves that limiter's consumption unchanged).
A call to `FeishuRateLimiter.Wait` is modelled by a cancellation schedule
`(c1, c2)`: `c1` is true when the context is cancelled during the per-second
wait, `c2` when it is cancelled during the per-minute wait. -/

/-- Consumption state of one `rate.Limiter`: units consumed so far. -/
structure FeishuRateLimiter where
  perSecond : Nat
  perMinute : Nat
deriving DecidableEq, Repr

/-- `rate.Limiter.Wait ctx` on a single limiter: returns the new consumed
count and whether the wait succeeded.  `cancelled` means the context was
cancelled while this wait was blocking. -/
def limiterWait (consumed : Nat) (cancelled : Bool) : Nat × Bool :=
  if cancelled then (consumed, false) else (consumed + 1, true)

/-- `FeishuRateLimiter.Wait` (core/ratelimiter.go:30-38): first wait on the
per-second limiter, return its error on failure; then wait on the per-minute
limiter and return its outcome. -/
def FeishuRateLimiter.Wait (l : FeishuRateLimiter) (c1 c2 : Bool) :
    FeishuRateLimiter × Bool :=
  let s := limiterWait l.perSecond c1
  if s.2 = false then ({ l with perSecond := s.1 }, false)
  else
    let m := limiterWait l.perMinute c2
    ({ perSecond := s.1, perMinute := m.1 }, m.2)

/-- C1 counterexample: the claim "a cancelled `Wait` consumes no unit from
either budget, and a caller never leaves the limiter having consumed only one
of the two budgets" is false.  With fresh counters, a context cancelled during
the per-minute wait (`c1 = false`, `c2 = true`) makes `Wait` return an error
while one per-second unit stays consumed. -/
theorem FeishuRateLimiter.wait_cancel_consumes_perSecond :
    ¬ ((FeishuRateLimiter.Wait ⟨0, 0⟩ false true).2 = false →
       (FeishuRateLimiter.Wait ⟨0, 0⟩ false true).1 = ⟨0, 0⟩) := by
  decide

/-- C1 amended: `Wait` never *proceeds* (returns success) having consumed only
one of the two budgets — on success exactly one unit is consumed from each
counter.  On cancellation during the per-second wait nothing is consumed, but
on cancellation during the per-minute wait the per-second unit already
consumed is not returned: the caller can leave the limiter having consumed the
per-second budget only. -/
theorem FeishuRateLimiter.wait_consumption (l : FeishuRateLimiter)
    (c1 c2 : Bool) :
    ((FeishuRateLimiter.Wait l c1 c2).2 = true →
      (FeishuRateLimiter.Wait l c1 c2).1 =
        ⟨l.perSecond + 1, l.perMinute + 1⟩) ∧
    (c1 = true → (FeishuRateLimiter.Wait l c1 c2).1 = l ∧
      (FeishuRateLimiter.Wait l c1 c2).2 = false) ∧
    (c1 = false → c2 = true →
      (FeishuRateLimiter.Wait l c1 c2).1 = ⟨l.perSecond + 1, l.perMinute⟩ ∧
      (FeishuRateLimiter.Wait l c1 c2).2 = false) := by
  cases l
  cases c1 <;> cases c2 <;> simp [FeishuRateLimiter.Wait, limiterWait]

/-- Witness for `FeishuRateLimiter.wait_consumption` at a concrete state and
schedule. -/
theorem FeishuRateLimiter.wait_consumption_witness :
    (FeishuRateLimiter.Wait ⟨2, 3⟩ false false).2 = true ∧
    (FeishuRateLimiter.Wait ⟨2, 3⟩ false false).1 = ⟨3, 4⟩ :=
  ⟨by decide, (FeishuRateLimiter.wait_consumption ⟨2, 3⟩ false false).1 (by decide)⟩

/-! ## C5: `shouldSkipFile` and the markdown write decision (cmd/download.go)

The file at the target path is modelled as `none` (no file: `os.Stat` reports
not-exist), `some none` (a file exists — or `os.Stat` fails with an error
other than not-exist, which `fileExists` also treats as existing — but
`os.ReadFile` fails), or `some (some c)` (a readable file with content `c`).
`calculateMD5` calls the external crypto/md5 library; it is modelled as an
abstract hash function parameter `md5`. -/

/-- `fileExists` (cmd/download.go:49-52): `os.Stat` error is not
"not exists". -/
def fileExists (file : Option (Option String)) : Bool :=
  file.isSome

/-- `shouldSkipFile` (cmd/download.go:55-76, part_001:1120-1141): skip only
when duplicate-skipping is on, the file exists, its content is readable, and
the MD5 of the existing content equals the MD5 of the new content. -/
def shouldSkipFile (md5 : String → String) (file : Option (Option String))
    (content : String) (skipDuplicate : Bool) : Bool :=
  if !skipDuplicate then false
  else if !fileExists file then false
  else
    match file with
    | some (some existingContent) => md5 existingContent = md5 content
    | _ => false

/-- The markdown write decision of `downloadDocument` (part_001:1576-1583):
the file is written unless `!forceDownload && shouldSkipFile(...)`. -/
def markdownWriteHappens (md5 : String → String) (file : Option (Option String))
    (result : String) (forceDownload skipDuplicate : Bool) : Bool :=
  !(!forceDownload && shouldSkipFile md5 file result skipDuplicate)

/-- C5: with skip-if-identical active and force off, the rendered output is
written iff no readable file already exists at the target path whose content
hashes (MD5) equal to the hash of the rendered output — a hash match skips
the write entirely; with force on, the write happens unconditionally. -/
theorem markdownWriteHappens_iff (md5 : String → String)
    (file : Option (Option String)) (result : String) :
    (markdownWriteHappens md5 file result false true = true ↔
      ¬ ∃ existingContent, file = some (some existingContent) ∧
        md5 existingContent = md5 result) ∧
    (∀ skipDuplicate, markdownWriteHappens md5 file result true skipDuplicate
      = true) := by
  constructor
  · rcases file with _ | (_ | c) <;>
      simp [markdownWriteHappens, shouldSkipFile, fileExists]
  · intro skipDuplicate
    simp [markdownWriteHappens]

/-- Witness for `markdownWriteHappens_iff`: with the identity hash, a readable
file whose content differs from the rendered output is overwritten. -/
theorem markdownWriteHappens_iff_witness :
    markdownWriteHappens id (some (some "old")) "new" false true = true :=
  ((markdownWriteHappens_iff id (some (some "old")) "new").1).2 (by
    rintro ⟨c, hc, hmd⟩
    cases hc
    exact absurd hmd (by decide))

/-! ## Go `path/filepath` helpers (Unix separator, as used by the repository)

`filepath.Clean` is ported from the Go standard library at the character
level.  The output buffer `out` is kept in reverse order so that the `..`
backtracking step pops from the head; `dd` is Go's `dotdot` marker (a length
into the output buffer).  `FromSlash` is the identity on Unix. -/

/-- The inner loop of Go Clean's `..` backtracking: Go repeatedly decrements
`out.w` while `out.w > dotdot` and the most recently excluded character is not
`'/'`.  `last` is the most recently popped character. -/
def backtrackGo (dd : Nat) : Char → List Char → List Char
  | _, [] => []
  | last, c :: rest =>
    if rest.length + 1 > dd ∧ last ≠ '/' then backtrackGo dd c rest
    else c :: rest

/-- Go Clean's `..` backtracking: unconditionally pop one character
(`out.w--`), then run the guarded loop. -/
def backtrack (dd : Nat) : List Char → List Char
  | [] => []
  | c :: rest => backtrackGo dd c rest

/-- The main loop of Go `filepath.Clean` (Unix).  `input` is the unread part
of the path, `out` the output buffer in reverse order, `dd` the `dotdot`
marker.  Go's loop runs until the input is exhausted; since every iteration
consumes at least one input character, running it on structural `fuel` with
`input.length ≤ fuel` computes the same result (the fuel-exhausted branch is
unreachable under that bound). -/
def cleanLoop (rooted : Bool) : Nat → List Char → List Char → Nat → List Char
  | _, [], out, _ => out
  | 0, _ :: _, out, _ => out
  | fuel + 1, c :: rest, out, dd =>
    if c = '/' then
      -- empty path element
      cleanLoop rooted fuel rest out dd
    else if c = '.' ∧ (rest = [] ∨ rest.head? = some '/') then
      -- "." element
      cleanLoop rooted fuel rest out dd
    else if c = '.' ∧ rest.head? = some '.' ∧
        (rest.tail = [] ∨ rest.tail.head? = some '/') then
      -- ".." element
      if dd < out.length then
        -- can backtrack
        cleanLoop rooted fuel rest.tail (backtrack dd out) dd
      else if rooted = true then
        cleanLoop rooted fuel rest.tail out dd
      else
        -- cannot backtrack and not rooted: append ".." and move dotdot
        let out2 := if out.length ≠ 0 then '.' :: '.' :: '/' :: out
                    else ['.', '.']
        cleanLoop rooted fuel rest.tail out2 out2.length
    else
      -- real path element; add slash if needed, then copy the element
      let out2 :=
        if (rooted = true ∧ out.length ≠ 1) ∨ (rooted = false ∧ out.length ≠ 0)
        then ((c :: rest).takeWhile (· ≠ '/')).reverse ++ '/' :: out
        else ((c :: rest).takeWhile (· ≠ '/')).reverse ++ out
      cleanLoop rooted fuel ((c :: rest).dropWhile (· ≠ '/')) out2 dd

/-- Go `filepath.Clean` on Unix (`FromSlash` is the identity). -/
def goClean (path : String) : String :=
  let cs := path.data
  if cs = [] then "."
  else
    let rooted := cs.head? = some '/'
    let out :=
      if rooted then cleanLoop true cs.length cs.tail ['/'] 1
      else cleanLoop false cs.length cs [] 0
    if out.length = 0 then "." else ⟨out.reverse⟩

/-- Go `strings.Split` with a single-character separator: always returns at
least one (possibly empty) piece. -/
def splitOnChar (sep : Char) : List Char → List (List Char)
  | [] => [[]]
  | c :: rest =>
    match splitOnChar sep rest with
    | [] => [[c]]
    | s :: ss => if c = sep then [] :: s :: ss else (c :: s) :: ss

/-- Go `filepath.Join` on Unix: join the non-empty elements with "/" and
`Clean` the result; if both elements are empty the result is empty. -/
def filepathJoin (a b : String) : String :=
  if a = "" then (if b = "" then "" else goClean b)
  else if b = "" then goClean a
  else goClean (a ++ "/" ++ b)

/-! ## C9: `deriveCategoryFromPath` (cmd/download.go, part_001:1238-1279) -/

/-- `deriveCategoryFromPath`: clean the relative path, split it into
non-empty, non-"." segments, and index them by the signed `level` (positive:
1 = outermost, clamped to the innermost; negative: -1 = innermost, clamped to
the outermost; 0 or no segments: empty string). -/
def deriveCategoryFromPath (relPath : String) (level : Int) : String :=
  let cleanPath := goClean relPath
  if cleanPath = "." ∨ cleanPath = "/" ∨ cleanPath = "" then ""
  else
    let parts := splitOnChar '/' cleanPath.data
    let dirs := parts.filter (fun p => decide (p ≠ [] ∧ p ≠ ['.']))
    if dirs.length = 0 then ""
    else if 0 < level then
      let i : Int := level - 1
      let i : Int := if (dirs.length : Int) ≤ i then (dirs.length : Int) - 1
                     else i
      ⟨dirs.getD i.toNat []⟩
    else if level < 0 then
      let i : Int := (dirs.length : Int) + level
      let i : Int := if i < 0 then 0 else i
      ⟨dirs.getD i.toNat []⟩
    else ""

/-! ### Plain relative paths

The relative paths fed to `deriveCategoryFromPath` (and produced by
`buildPaths`) are "." or joins of plain segments: non-empty, free of the path
separator, and distinct from the special elements "." and "..".  On such
paths `filepath.Clean` is the identity and `strings.Split` recovers the
segments. -/

/-- A plain path segment. -/
def PlainSeg (s : List Char) : Prop :=
  s ≠ [] ∧ '/' ∉ s ∧ s ≠ ['.'] ∧ s ≠ ['.', '.']

instance (s : List Char) : Decidable (PlainSeg s) :=
  inferInstanceAs (Decidable (s ≠ [] ∧ '/' ∉ s ∧ s ≠ ['.'] ∧ s ≠ ['.', '.']))

/-- Join segments with the path separator. -/
def joinSegs : List (List Char) → List Char
  | [] => []
  | s :: rest => s ++ (if rest.isEmpty then [] else '/' :: joinSegs rest)

theorem takeWhile_append_all (p : Char → Bool) :
    ∀ s t : List Char, (∀ x ∈ s, p x = true) →
      (s ++ t).takeWhile p = s ++ t.takeWhile p := by
  intro s t hs
  induction s with
  | nil => simp
  | cons c cs ih =>
    have hc : p c = true := hs c (by simp)
    simp only [List.cons_append, List.takeWhile_cons, hc, if_true]
    rw [ih (fun x hx => hs x (by simp [hx]))]

theorem dropWhile_append_all (p : Char → Bool) :
    ∀ s t : List Char, (∀ x ∈ s, p x = true) →
      (s ++ t).dropWhile p = t.dropWhile p := by
  intro s t hs
  induction s with
  | nil => simp
  | cons c cs ih =>
    have hc : p c = true := hs c (by simp)
    simp only [List.cons_append, List.dropWhile_cons, hc, if_true]
    exact ih (fun x hx => hs x (by simp [hx]))

theorem takeWhile_slash_head (t : List Char)
    (ht : t = [] ∨ t.head? = some '/') :
    t.takeWhile (· ≠ '/') = [] ∧ t.dropWhile (· ≠ '/') = t := by
  rcases ht with h | h
  · subst h; simp
  · cases t with
    | nil => simp
    | cons c rest =>
      simp only [List.head?_cons, Option.some.injEq] at h
      subst h
      simp

/-- One iteration of `cleanLoop` consumes one whole plain segment at the head
of the input (the remaining input is empty or starts with the separator). -/
theorem cleanLoop_seg (s t out : List Char) (dd fuel : Nat) (hs : PlainSeg s)
    (ht : t = [] ∨ t.head? = some '/') :
    cleanLoop false (fuel + 1) (s ++ t) out dd =
      cleanLoop false fuel (t.dropWhile (· ≠ '/'))
        (s.reverse ++ if out.length ≠ 0 then '/' :: out else out) dd := by
  obtain ⟨hne, hsl, hdot, hdots⟩ := hs
  obtain ⟨c, cs, rfl⟩ : ∃ c cs, s = c :: cs := by
    cases s with
    | nil => exact absurd rfl hne
    | cons c cs => exact ⟨c, cs, rfl⟩
  have hcmem : ∀ x ∈ c :: cs, x ≠ '/' := fun x hx h => hsl (h ▸ hx)
  have hc : c ≠ '/' := hcmem c (by simp)
  rw [List.cons_append, cleanLoop]
  rw [if_neg hc]
  have cond2 : ¬(c = '.' ∧ (cs ++ t = [] ∨ (cs ++ t).head? = some '/')) := by
    rintro ⟨rfl, h2⟩
    cases cs with
    | nil => exact hdot rfl
    | cons c2 cs2 =>
      rcases h2 with h2 | h2
      · simp at h2
      · simp only [List.cons_append, List.head?_cons, Option.some.injEq] at h2
        exact hcmem c2 (by simp) h2
  rw [if_neg cond2]
  have cond3 : ¬(c = '.' ∧ (cs ++ t).head? = some '.' ∧
      ((cs ++ t).tail = [] ∨ (cs ++ t).tail.head? = some '/')) := by
    rintro ⟨rfl, h2, h3⟩
    cases cs with
    | nil => exact hdot rfl
    | cons c2 cs2 =>
      simp only [List.cons_append, List.head?_cons, Option.some.injEq] at h2
      subst h2
      simp only [List.cons_append, List.tail_cons] at h3
      cases cs2 with
      | nil => exact hdots rfl
      | cons c3 cs3 =>
        rcases h3 with h3 | h3
        · simp at h3
        · simp only [List.cons_append, List.head?_cons, Option.some.injEq] at h3
          exact hcmem c3 (by simp) h3
  rw [if_neg cond3]
  have htake : (c :: (cs ++ t)).takeWhile (· ≠ '/') = c :: cs := by
    rw [show c :: (cs ++ t) = (c :: cs) ++ t by simp,
      takeWhile_append_all _ _ _ (fun x hx => by
        simpa using hcmem x hx),
      (takeWhile_slash_head t ht).1, List.append_nil]
  have hdrop : (c :: (cs ++ t)).dropWhile (· ≠ '/') = t.dropWhile (· ≠ '/') := by
    rw [show c :: (cs ++ t) = (c :: cs) ++ t by simp,
      dropWhile_append_all _ _ _ (fun x hx => by simpa using hcmem x hx)]
  rw [htake, hdrop]
  by_cases h : out = [] <;> simp [h]

/-- Skipping a separator at the head of the input. -/
theorem cleanLoop_slash (t out : List Char) (dd fuel : Nat) :
    cleanLoop false (fuel + 1) ('/' :: t) out dd =
      cleanLoop false fuel t out dd := by
  rw [cleanLoop, if_pos rfl]

/-- `cleanLoop` on a non-empty join of plain segments reproduces the input
(in reverse, prefixed to the incoming buffer with a separator). -/
theorem cleanLoop_joinSegs :
    ∀ (segs : List (List Char)) (out : List Char) (dd fuel : Nat),
      segs ≠ [] → (∀ s ∈ segs, PlainSeg s) →
      (joinSegs segs).length ≤ fuel →
      cleanLoop false fuel (joinSegs segs) out dd =
        (joinSegs segs).reverse ++
          (if out.length ≠ 0 then '/' :: out else out) := by
  intro segs
  induction segs with
  | nil => intro _ _ _ h; exact absurd rfl h
  | cons s rest ih =>
    intro out dd fuel _ hplain hfuel
    have hs : PlainSeg s := hplain s (by simp)
    cases rest with
    | nil =>
      simp only [joinSegs, List.isEmpty_nil, if_true, List.append_nil] at hfuel ⊢
      obtain ⟨f, rfl⟩ : ∃ f, fuel = f + 1 := by
        cases fuel with
        | zero =>
          exfalso
          have : s ≠ [] := hs.1
          cases s with
          | nil => exact this rfl
          | cons _ _ => simp at hfuel
        | succ f => exact ⟨f, rfl⟩
      rw [show s = s ++ ([] : List Char) by simp,
        cleanLoop_seg s [] out dd f hs (Or.inl rfl)]
      simp [cleanLoop]
    | cons s2 rest2 =>
      have hJeq : joinSegs (s :: s2 :: rest2) = s ++ '/' :: joinSegs (s2 :: rest2) := by
        rw [joinSegs]
        simp
      rw [hJeq] at hfuel ⊢
      obtain ⟨f, rfl⟩ : ∃ f, fuel = f + 1 := by
        cases fuel with
        | zero =>
          exfalso
          cases s with
          | nil => exact hs.1 rfl
          | cons _ _ => simp at hfuel
        | succ f => exact ⟨f, rfl⟩
      rw [cleanLoop_seg s ('/' :: joinSegs (s2 :: rest2)) out dd f hs
        (Or.inr (by simp))]
      simp only [List.dropWhile_cons, List.length_cons]
      rw [if_neg (by simp)]
      obtain ⟨f2, rfl⟩ : ∃ f2, f = f2 + 1 := by
        cases f with
        | zero =>
          exfalso
          have h1 : 1 ≤ s.length := by
            cases s with
            | nil => exact absurd rfl hs.1
            | cons _ _ => simp
          simp only [List.length_append, List.length_cons] at hfuel
          omega
        | succ f2 => exact ⟨f2, rfl⟩
      rw [cleanLoop_slash]
      have hfuel2 : (joinSegs (s2 :: rest2)).length ≤ f2 := by
        have h1 : 1 ≤ s.length := by
          cases s with
          | nil => exact absurd rfl hs.1
          | cons _ _ => simp
        simp only [List.length_append, List.length_cons] at hfuel
        omega
      rw [ih _ dd f2 (by simp) (fun x hx => hplain x (by simp [hx])) hfuel2]
      have houtne : (s.reverse ++ if out.length ≠ 0 then '/' :: out else out).length ≠ 0 := by
        have h1 : 1 ≤ s.length := by
          cases s with
          | nil => exact absurd rfl hs.1
          | cons _ _ => simp
        rw [List.length_append, List.length_reverse]
        omega
      rw [if_pos houtne]
      rcases Decidable.em (out.length ≠ 0) with h | h <;> simp [h]

/-- The head of a non-empty join of plain segments is the head of its first
segment. -/
theorem joinSegs_head (s : List Char) (rest : List (List Char)) (hne : s ≠ []) :
    (joinSegs (s :: rest)).head? = s.head? := by
  simp only [joinSegs]
  cases s with
  | nil => exact absurd rfl hne
  | cons c cs => simp

/-- `filepath.Clean` is the identity on a non-empty join of plain segments. -/
theorem goClean_joinSegs (segs : List (List Char)) (hne : segs ≠ [])
    (hplain : ∀ s ∈ segs, PlainSeg s) :
    goClean ⟨joinSegs segs⟩ = ⟨joinSegs segs⟩ := by
  obtain ⟨s, rest, rfl⟩ : ∃ s rest, segs = s :: rest := by
    cases segs with
    | nil => exact absurd rfl hne
    | cons s rest => exact ⟨s, rest, rfl⟩
  have hs : PlainSeg s := hplain s (by simp)
  have hJne : joinSegs (s :: rest) ≠ [] := by
    simp only [joinSegs]
    cases s with
    | nil => exact absurd rfl hs.1
    | cons _ _ => simp
  have hroot : ¬((joinSegs (s :: rest)).head? = some '/') := by
    rw [joinSegs_head s rest hs.1]
    cases s with
    | nil => exact absurd rfl hs.1
    | cons c cs =>
      simp only [List.head?_cons, Option.some.injEq]
      exact fun h => hs.2.1 (by simp [h])
  show goClean ⟨joinSegs (s :: rest)⟩ = _
  unfold goClean
  simp only [String.data]
  rw [if_neg hJne, if_neg hroot,
    cleanLoop_joinSegs (s :: rest) [] 0 _ (by simp) hplain (le_refl _)]
  simp only [List.length_nil, ne_eq, not_true_eq_false, if_false,
    List.append_nil]
  rw [if_neg (by simpa using hJne)]
  simp

/-- `strings.Split` never returns an empty list. -/
theorem splitOnChar_ne_nil (sep : Char) : ∀ t, splitOnChar sep t ≠ [] := by
  intro t
  cases t with
  | nil => simp [splitOnChar]
  | cons c rest =>
    simp only [splitOnChar]
    rcases h : splitOnChar sep rest with _ | ⟨s, ss⟩
    · simp
    · rcases Decidable.em (c = sep) with hc | hc <;> simp [hc]

/-- `strings.Split` on a separator-free string returns that one piece. -/
theorem splitOnChar_sep_free (sep : Char) :
    ∀ s : List Char, sep ∉ s → splitOnChar sep s = [s] := by
  intro s
  induction s with
  | nil => intro _; rfl
  | cons c cs ih =>
    intro hmem
    have hc : c ≠ sep := fun h => hmem (by simp [h])
    simp only [splitOnChar, ih (fun h => hmem (by simp [h]))]
    simp [hc]

/-- `strings.Split` splits off a separator-free prefix. -/
theorem splitOnChar_append (sep : Char) :
    ∀ s t : List Char, sep ∉ s →
      splitOnChar sep (s ++ sep :: t) = s :: splitOnChar sep t := by
  intro s
  induction s with
  | nil =>
    intro t _
    simp only [List.nil_append, splitOnChar]
    rcases h : splitOnChar sep t with _ | ⟨s0, ss⟩
    · exact absurd h (splitOnChar_ne_nil sep t)
    · simp
  | cons c cs ih =>
    intro t hmem
    have hc : c ≠ sep := fun h => hmem (by simp [h])
    have hstep : splitOnChar sep ((c :: cs) ++ sep :: t) =
        match splitOnChar sep (cs ++ sep :: t) with
        | [] => [[c]]
        | s :: ss => if c = sep then [] :: s :: ss else (c :: s) :: ss := rfl
    rw [hstep, ih t (fun h => hmem (by simp [h]))]
    simp [hc]

/-- `strings.Split` recovers the segments of a join. -/
theorem splitOnChar_joinSegs :
    ∀ segs : List (List Char), segs ≠ [] → (∀ s ∈ segs, '/' ∉ s) →
      splitOnChar '/' (joinSegs segs) = segs := by
  intro segs
  induction segs with
  | nil => intro h; exact absurd rfl h
  | cons s rest ih =>
    intro _ hfree
    cases rest with
    | nil =>
      simp only [joinSegs, List.isEmpty_nil, if_true, List.append_nil]
      exact splitOnChar_sep_free '/' s (hfree s (by simp))
    | cons s2 rest2 =>
      have hJeq : joinSegs (s :: s2 :: rest2) =
          s ++ '/' :: joinSegs (s2 :: rest2) := by
        rw [joinSegs]
        simp
      rw [hJeq, splitOnChar_append '/' s _ (hfree s (by simp)),
        ih (by simp) (fun x hx => hfree x (by simp [hx]))]

/-- A non-empty join of plain segments is not "", "." or "/". -/
theorem joinSegs_not_special (segs : List (List Char)) (hne : segs ≠ [])
    (hplain : ∀ s ∈ segs, PlainSeg s) :
    joinSegs segs ≠ [] ∧ joinSegs segs ≠ ['.'] ∧ joinSegs segs ≠ ['/'] := by
  obtain ⟨s, rest, rfl⟩ : ∃ s rest, segs = s :: rest := by
    cases segs with
    | nil => exact absurd rfl hne
    | cons s rest => exact ⟨s, rest, rfl⟩
  obtain ⟨hs1, hs2, hs3, hs4⟩ := hplain s (by simp)
  obtain ⟨c, cs, rfl⟩ : ∃ c cs, s = c :: cs := by
    cases s with
    | nil => exact absurd rfl hs1
    | cons c cs => exact ⟨c, cs, rfl⟩
  simp only [joinSegs]
  cases rest with
  | nil =>
    simp only [List.isEmpty_nil, if_true, List.append_nil]
    refine ⟨by simp, hs3, ?_⟩
    intro h
    exact hs2 (by simp [h])
  | cons s2 rest2 =>
    simp only [List.isEmpty_cons, Bool.false_eq_true, if_false]
    refine ⟨by simp, ?_, ?_⟩ <;>
    · intro h
      rw [List.cons_append] at h
      have := congrArg List.length h
      simp at this

/-- C9: `deriveCategoryFromPath` on a join of plain path segments indexes the
segments from the outermost when `level` is positive (1 = first segment,
out-of-range clamped to the innermost via `min`) and from the innermost when
`level` is negative (-1 = last segment, out-of-range clamped to the outermost
via `Int.toNat`'s truncation at 0), and yields no category when `level` is 0
or the path is empty; in particular `categoryFromPath "a/b/c" 1 = "a"`,
`(-1) = "c"`, `(5) = "c"`, `(-5) = "a"`. -/
theorem deriveCategoryFromPath_spec (segs : List (List Char)) (level : Int)
    (hne : segs ≠ []) (hplain : ∀ s ∈ segs, PlainSeg s) :
    (0 < level → deriveCategoryFromPath ⟨joinSegs segs⟩ level =
        ⟨segs.getD (min (level.toNat - 1) (segs.length - 1)) []⟩) ∧
    (level < 0 → deriveCategoryFromPath ⟨joinSegs segs⟩ level =
        ⟨segs.getD ((segs.length : Int) + level).toNat []⟩) ∧
    (deriveCategoryFromPath ⟨joinSegs segs⟩ 0 = "") ∧
    (deriveCategoryFromPath "" level = "") ∧
    (deriveCategoryFromPath "." level = "") ∧
    deriveCategoryFromPath "a/b/c" 1 = "a" ∧
    deriveCategoryFromPath "a/b/c" (-1) = "c" ∧
    deriveCategoryFromPath "a/b/c" 5 = "c" ∧
    deriveCategoryFromPath "a/b/c" (-5) = "a" := by
  have hclean := goClean_joinSegs segs hne hplain
  obtain ⟨hJ0, hJdot, hJslash⟩ := joinSegs_not_special segs hne hplain
  have hnotspecial : ¬((goClean ⟨joinSegs segs⟩ : String) = "." ∨
      goClean ⟨joinSegs segs⟩ = "/" ∨ goClean ⟨joinSegs segs⟩ = "") := by
    rw [hclean]
    rintro (h | h | h) <;>
    · rw [String.ext_iff] at h
      first
        | exact hJdot h
        | exact hJslash h
        | exact hJ0 h
  have hsplit : splitOnChar '/' (joinSegs segs) = segs :=
    splitOnChar_joinSegs segs hne (fun s hs => ((hplain s hs).2).1)
  have hfilter : segs.filter (fun p => decide (p ≠ [] ∧ p ≠ ['.'])) = segs := by
    rw [List.filter_eq_self]
    intro s hs
    obtain ⟨h1, _, h3, _⟩ := hplain s hs
    exact decide_eq_true ⟨h1, h3⟩
  have hlen : segs.length ≠ 0 := by
    cases segs with
    | nil => exact absurd rfl hne
    | cons _ _ => simp
  have hbody : ∀ lv : Int, deriveCategoryFromPath ⟨joinSegs segs⟩ lv =
      (if 0 < lv then
        (⟨segs.getD (if (segs.length : Int) ≤ lv - 1 then
            ((segs.length : Int) - 1).toNat else (lv - 1).toNat) []⟩ : String)
      else if lv < 0 then
        ⟨segs.getD (if (segs.length : Int) + lv < 0 then (0 : Int).toNat
          else ((segs.length : Int) + lv).toNat) []⟩
      else "") := by
    intro lv
    unfold deriveCategoryFromPath
    rw [if_neg hnotspecial]
    simp only [hclean, String.data]
    rw [hsplit, hfilter, if_neg hlen]
    rcases Decidable.em (0 < lv) with h | h
    · rw [if_pos h, if_pos h]
      rcases Decidable.em ((segs.length : Int) ≤ lv - 1) with h2 | h2 <;>
        simp [h2]
    · rw [if_neg h, if_neg h]
      rcases Decidable.em (lv < 0) with h3 | h3
      · rw [if_pos h3, if_pos h3]
        rcases Decidable.em ((segs.length : Int) + lv < 0) with h4 | h4 <;>
          simp [h4]
      · rw [if_neg h3, if_neg h3]
  refine ⟨?_, ?_, ?_, rfl, rfl, by decide, by decide, by decide, by decide⟩
  · intro hpos
    rw [hbody level, if_pos hpos]
    congr 1
    rcases Decidable.em ((segs.length : Int) ≤ level - 1) with h2 | h2 <;>
      simp only [h2, if_true, if_false, reduceIte] <;> congr 1 <;> omega
  · intro hneg
    rw [hbody level, if_neg (by omega), if_pos hneg]
    congr 1
    rcases Decidable.em ((segs.length : Int) + level < 0) with h4 | h4 <;>
      simp only [h4, if_true, if_false, reduceIte]
    all_goals congr 1
    all_goals omega
  · rw [hbody 0]
    norm_num

/-- Witness for `deriveCategoryFromPath_spec` at the segment list
`["a", "b", "c"]` and level 2. -/
theorem deriveCategoryFromPath_spec_witness :
    deriveCategoryFromPath "a/b/c" 2 = "b" := by
  have h := (deriveCategoryFromPath_spec [['a'], ['b'], ['c']] 2
    (by decide) (by decide)).1 (by decide)
  simpa using h

/-! ## C4: `GetAllChildNodes` (core/client.go:666-690) and `buildPaths`
(cmd/download.go, part_001:1824-1846)

The remote store is modelled by an oracle `children : String → List Document`:
the flattened result of `Client.GetChildNodes` (the paginated listing) for a
given parent node token.  `GetAllChildNodes` runs `processNode` on the root:
for each listed node, append it to the result and recurse into it when it has
children.  Go's recursion is unbounded; the explicit `fuel` decreases at each
recursion into a child, and `= some l` states that the Go execution
terminates with result `l`. -/

/-- `core.Document` (core/client.go:611-618). -/
structure Document where
  Token : String
  NodeToken : String
  Name : String
  «Type» : String
  ParentToken : String
  HasChild : Bool
deriving DecidableEq, Repr

/-- The node-token list of a node list. -/
def nodeTokens (l : List Document) : List String :=
  l.map (·.NodeToken)

/-- The `for _, node := range nodes` loop of `processNode`: append the node,
recurse into it (through `rec`, the recursive call at the next fuel level)
when `HasChild`, and continue with the remaining nodes; any listing error
aborts the whole resolution.  The recursive call is passed as a parameter so
that both recursions are structural (in the fuel and in the list) and the
definitions compute. -/
def processListAux (rec : String → Option (List Document)) :
    List Document → Option (List Document)
  | [] => some []
  | node :: rest =>
    match (if node.HasChild then rec node.NodeToken else some []) with
    | none => none
    | some sub =>
      match processListAux rec rest with
      | none => none
      | some tail => some (node :: (sub ++ tail))

/-- `processNode` inside `GetAllChildNodes`: list the children of `nodeToken`
and process them in order. -/
def processNode (children : String → List Document) :
    Nat → String → Option (List Document)
  | 0, _ => none
  | fuel + 1, nodeToken =>
    processListAux (processNode children fuel) (children nodeToken)

/-- The loop of `processNode` at a given fuel level. -/
def processList (children : String → List Document) (fuel : Nat)
    (nodes : List Document) : Option (List Document) :=
  processListAux (processNode children fuel) nodes

/-- `Client.GetAllChildNodes`: all descendants of the root, in discovery
order (the root itself is not included). -/
def getAllChildNodes (children : String → List Document) (fuel : Nat)
    (rootNodeToken : String) : Option (List Document) :=
  processNode children fuel rootNodeToken

/-- The path map `nodeToken -> relative path`, modelled as a function (a Go
map holds at most one entry per key). -/
def PathMap : Type := String → Option String

/-- Go map assignment `pathMap[k] = v`. -/
def pmUpdate (pm : PathMap) (k v : String) : PathMap :=
  fun x => if x = k then some v else pm x

/-- The empty Go map. -/
def pmEmpty : PathMap := fun _ => none

/-- The `for _, node := range allNodes` loop of `buildPaths`: for every node
whose `ParentToken` matches, record `filepath.Join(parentPath,
SanitizeFileName(node.Name))` and recurse into it (through `rec`, the
recursive call at the next fuel level) when it has children.  As with the
traversal, the recursive call is a parameter so that both recursions are
structural and the definitions compute. -/
def buildPathsListAux (rec : String → String → PathMap → Option PathMap)
    (parentToken parentPath : String) :
    List Document → PathMap → Option PathMap
  | [], pm => some pm
  | node :: rest, pm =>
    if node.ParentToken = parentToken then
      let nodePath := filepathJoin parentPath (sanitizeFileName node.Name)
      let pm2 := pmUpdate pm node.NodeToken nodePath
      if node.HasChild then
        match rec node.NodeToken nodePath pm2 with
        | none => none
        | some pm3 => buildPathsListAux rec parentToken parentPath rest pm3
      else
        buildPathsListAux rec parentToken parentPath rest pm2
    else
      buildPathsListAux rec parentToken parentPath rest pm

/-- `buildPaths(parentToken, parentPath)` of `downloadWikiChildren`
(part_001:1830-1844): scan the whole node list, recording the path of every
child of `parentToken` and recursing into children that have children of
their own.  The Go recursion is unbounded; `fuel` decreases at each recursion
into a child and `= some pm` states that the Go execution terminates. -/
def buildPaths (allNodes : List Document) :
    Nat → String → String → PathMap → Option PathMap
  | 0, _, _, _ => none
  | fuel + 1, parentToken, parentPath, pm =>
    buildPathsListAux (buildPaths allNodes fuel) parentToken parentPath
      allNodes pm

/-- The loop of `buildPaths` at a given fuel level. -/
def buildPathsList (allNodes : List Document) (fuel : Nat)
    (parentToken parentPath : String) (nodes : List Document)
    (pm : PathMap) : Option PathMap :=
  buildPathsListAux (buildPaths allNodes fuel) parentToken parentPath nodes pm

/-- The whole path-map construction of `downloadWikiChildren`
(part_001:1824-1846): seed the root entry `"."` and run `buildPaths` from the
root. -/
def buildPathMap (allNodes : List Document) (rootToken : String) (fuel : Nat) :
    Option PathMap :=
  buildPaths allNodes fuel rootToken "." (pmUpdate pmEmpty rootToken ".")

/-- `t` was explored by the traversal of `l`: some listed node with children
carries that token. -/
def ExploredIn (l : List Document) (t : String) : Prop :=
  ∃ m ∈ l, m.HasChild = true ∧ m.NodeToken = t

/-! ### Structure of a completed traversal -/

theorem nodeTokens_cons (n : Document) (l : List Document) :
    nodeTokens (n :: l) = n.NodeToken :: nodeTokens l := rfl

theorem nodeTokens_append (l₁ l₂ : List Document) :
    nodeTokens (l₁ ++ l₂) = nodeTokens l₁ ++ nodeTokens l₂ := by
  simp [nodeTokens]

theorem mem_nodeTokens {k : String} {l : List Document} :
    k ∈ nodeTokens l ↔ ∃ n ∈ l, n.NodeToken = k := by
  simp [nodeTokens]

theorem processList_nil (children : String → List Document) (fuel : Nat) :
    processList children fuel [] = some [] := rfl

theorem processList_cons (children : String → List Document) (fuel : Nat)
    (node : Document) (rest : List Document) :
    processList children fuel (node :: rest) =
      match (if node.HasChild then processNode children fuel node.NodeToken
             else some []) with
      | none => none
      | some sub =>
        match processList children fuel rest with
        | none => none
        | some tail => some (node :: (sub ++ tail)) := rfl

theorem processList_nil_elim {children : String → List Document} {fuel : Nat}
    {l' : List Document} (h : processList children fuel [] = some l') :
    l' = [] := by
  rw [processList_nil, Option.some.injEq] at h
  exact h.symm

theorem processList_cons_elim {children : String → List Document} {fuel : Nat}
    {node : Document} {rest l' : List Document}
    (h : processList children fuel (node :: rest) = some l') :
    ∃ sub tail,
      (if node.HasChild then processNode children fuel node.NodeToken
       else some []) = some sub ∧
      processList children fuel rest = some tail ∧
      l' = node :: (sub ++ tail) := by
  rw [processList_cons] at h
  split at h
  · simp at h
  · rename_i sub hsub
    split at h
    · simp at h
    · rename_i tail htail
      simp only [Option.some.injEq] at h
      exact ⟨sub, tail, hsub, htail, h.symm⟩

theorem processNode_elim {children : String → List Document} {fuel : Nat}
    {t : String} {l' : List Document}
    (h : processNode children fuel t = some l') :
    ∃ f, fuel = f + 1 ∧ processList children f (children t) = some l' := by
  cases fuel with
  | zero => simp [processNode] at h
  | succ f => exact ⟨f, rfl, by simpa [processNode, processList] using h⟩

/-- Every node of a completed traversal was listed under the traversal root
or under the token of another node of the result: its `ParentToken` (which,
for an honest remote, is the token it was listed under) points into the
result. -/
theorem processList_parent (children : String → List Document)
    (honest : ∀ p, ∀ d ∈ children p, d.ParentToken = p) :
    ∀ fuel L l' t, processList children fuel L = some l' →
      (∀ n ∈ L, n.ParentToken = t) →
      ∀ m ∈ l', m.ParentToken = t ∨ m.ParentToken ∈ nodeTokens l' := by
  intro fuel
  induction fuel using Nat.strong_induction_on with
  | _ fuel ihf =>
    intro L
    induction L with
    | nil =>
      intro l' t h _ m hm
      rw [processList_nil_elim h] at hm
      simp at hm
    | cons n rest ihL =>
      intro l' t h hL m hm
      obtain ⟨sub, tail, hsub, htail, rfl⟩ := processList_cons_elim h
      rcases List.mem_cons.mp hm with rfl | hm2
      · exact Or.inl (hL m (by simp))
      rcases List.mem_append.mp hm2 with hmsub | hmtail
      · by_cases hc : n.HasChild
        · rw [if_pos hc] at hsub
          obtain ⟨f, rfl, hpl⟩ := processNode_elim hsub
          rcases ihf f (by omega) (children n.NodeToken) sub n.NodeToken hpl
              (fun d hd => honest n.NodeToken d hd) m hmsub with h1 | h1
          · exact Or.inr (by
              simp only [nodeTokens_cons, nodeTokens_append]
              simp [h1])
          · exact Or.inr (by
              simp only [nodeTokens_cons, nodeTokens_append]
              simp [h1])
        · rw [if_neg hc] at hsub
          injection hsub with hsub
          rw [← hsub] at hmsub
          simp at hmsub
      · rcases ihL tail t htail (fun x hx => hL x (by simp [hx])) m hmtail
          with h1 | h1
        · exact Or.inl h1
        · exact Or.inr (by
            simp only [nodeTokens_cons, nodeTokens_append]
            simp [h1])

/-- The nodes of `l` whose `ParentToken` is `t`. -/
def parentFilter (l : List Document) (t : String) : List Document :=
  l.filter (fun n => decide (n.ParentToken = t))

theorem parentFilter_nil (t : String) : parentFilter [] t = [] := rfl

theorem parentFilter_cons (n : Document) (l : List Document) (t : String) :
    parentFilter (n :: l) t =
      if n.ParentToken = t then n :: parentFilter l t else parentFilter l t := by
  simp only [parentFilter, List.filter_cons]
  rcases Decidable.em (n.ParentToken = t) with h | h <;> simp [h]

theorem parentFilter_append (l₁ l₂ : List Document) (t : String) :
    parentFilter (l₁ ++ l₂) t = parentFilter l₁ t ++ parentFilter l₂ t := by
  simp [parentFilter]

/-- The decisive structural fact about a completed traversal with an honest
remote and globally distinct node tokens: the nodes of the result whose
`ParentToken` is the traversal root are exactly the input node list; the
nodes whose `ParentToken` is a token explored inside the traversal are
exactly that token's remote listing; and no node points at an unexplored
parent. -/
theorem processList_filter (children : String → List Document)
    (honest : ∀ p, ∀ d ∈ children p, d.ParentToken = p) :
    ∀ fuel L l' t, processList children fuel L = some l' →
      (∀ n ∈ L, n.ParentToken = t) →
      (t :: nodeTokens l').Nodup →
      ∀ t', (t' = t → parentFilter l' t' = L) ∧
        (t' ≠ t → ExploredIn l' t' → parentFilter l' t' = children t') ∧
        (t' ≠ t → ¬ ExploredIn l' t' → parentFilter l' t' = []) := by
  intro fuel
  induction fuel using Nat.strong_induction_on with
  | _ fuel ihf =>
    intro L
    induction L with
    | nil =>
      intro l' t h _ _ t'
      rw [processList_nil_elim h]
      refine ⟨fun _ => rfl, fun _ hexp => ?_, fun _ _ => rfl⟩
      obtain ⟨m, hm, _⟩ := hexp
      simp at hm
    | cons n rest ihL =>
      intro l' t h hL hnd t'
      obtain ⟨sub, tail, hsub, htail, rfl⟩ := processList_cons_elim h
      have hnpt : n.ParentToken = t := hL n (by simp)
      -- decompose the Nodup hypothesis
      have hnd' := hnd
      simp only [nodeTokens_cons, nodeTokens_append, List.nodup_cons,
        List.mem_cons, List.mem_append, List.nodup_append] at hnd'
      obtain ⟨⟨htn, htsub, httail⟩, hnsub, hntail, hsubnd, htailnd, hdisj⟩ :
          (¬(t = n.NodeToken) ∧ t ∉ nodeTokens sub ∧ t ∉ nodeTokens tail) ∧
          n.NodeToken ∉ nodeTokens sub ∧ n.NodeToken ∉ nodeTokens tail ∧
          (nodeTokens sub).Nodup ∧ (nodeTokens tail).Nodup ∧
          List.Disjoint (nodeTokens sub) (nodeTokens tail) := by
        tauto
      have hndtail : (t :: nodeTokens tail).Nodup := by
        simp only [List.nodup_cons]
        exact ⟨httail, htailnd⟩
      have ihtail := ihL tail t htail (fun x hx => hL x (by simp [hx])) hndtail
      -- facts about sub in the HasChild case
      refine ⟨?_, ?_, ?_⟩
      · -- t' = t: the filter recovers the input list
        rintro rfl
        rw [parentFilter_cons, if_pos hnpt, parentFilter_append]
        have hsubf : parentFilter sub t' = [] := by
          by_cases hc : n.HasChild
          · rw [if_pos hc] at hsub
            obtain ⟨f, rfl, hpl⟩ := processNode_elim hsub
            have hndsub : (n.NodeToken :: nodeTokens sub).Nodup := by
              simp only [List.nodup_cons]
              exact ⟨hnsub, hsubnd⟩
            have := (ihf f (by omega) (children n.NodeToken) sub n.NodeToken
              hpl (fun d hd => honest n.NodeToken d hd) hndsub t').2.2
            refine this htn ?_
            rintro ⟨m, hm, _, hmt⟩
            exact htsub (mem_nodeTokens.mpr ⟨m, hm, hmt⟩)
          · rw [if_neg hc] at hsub
            injection hsub with hsub
            rw [← hsub]
            rfl
        rw [hsubf, (ihtail t').1 rfl]
        rfl
      · -- t' explored inside the result: the filter is its remote listing
        intro hne hexp
        rw [parentFilter_cons,
          if_neg (by intro hh; exact hne (by rw [← hh]; exact hnpt)),
          parentFilter_append]
        obtain ⟨m, hm, hmc, hmt⟩ := hexp
        rcases List.mem_cons.mp hm with rfl | hm2
        · -- the explored token is the head node itself
          rw [if_pos hmc] at hsub
          obtain ⟨f, rfl, hpl⟩ := processNode_elim hsub
          have hndsub : (m.NodeToken :: nodeTokens sub).Nodup := by
            simp only [List.nodup_cons]
            exact ⟨hnsub, hsubnd⟩
          have hsubf := (ihf f (by omega) (children m.NodeToken) sub
            m.NodeToken hpl (fun d hd => honest m.NodeToken d hd) hndsub t').1
            hmt.symm
          have htailf : parentFilter tail t' = [] := by
            refine (ihtail t').2.2 hne ?_
            rintro ⟨m2, hm2, _, hmt2⟩
            exact hntail (hmt ▸ hmt2 ▸ mem_nodeTokens.mpr ⟨m2, hm2, rfl⟩)
          rw [hsubf, htailf, hmt, List.append_nil]
        rcases List.mem_append.mp hm2 with hmsub | hmtail
        · -- explored inside the subtree of the head node
          have ht'sub : t' ∈ nodeTokens sub := mem_nodeTokens.mpr ⟨m, hmsub, hmt⟩
          by_cases hc : n.HasChild
          · rw [if_pos hc] at hsub
            obtain ⟨f, rfl, hpl⟩ := processNode_elim hsub
            have hndsub : (n.NodeToken :: nodeTokens sub).Nodup := by
              simp only [List.nodup_cons]
              exact ⟨hnsub, hsubnd⟩
            have hsubf := ((ihf f (by omega) (children n.NodeToken) sub
              n.NodeToken hpl (fun d hd => honest n.NodeToken d hd) hndsub
              t').2.1 (fun hh => hnsub (hh ▸ ht'sub)))
              ⟨m, hmsub, hmc, hmt⟩
            have htailf : parentFilter tail t' = [] := by
              refine (ihtail t').2.2 hne ?_
              rintro ⟨m2, hm2, _, hmt2⟩
              exact hdisj ht'sub (hmt2 ▸ mem_nodeTokens.mpr ⟨m2, hm2, rfl⟩)
            rw [hsubf, htailf, List.append_nil]
          · rw [if_neg hc] at hsub
            injection hsub with hsub
            rw [← hsub] at hmsub
            simp at hmsub
        · -- explored inside the tail
          have ht'tail : t' ∈ nodeTokens tail :=
            mem_nodeTokens.mpr ⟨m, hmtail, hmt⟩
          have htailf := (ihtail t').2.1 hne ⟨m, hmtail, hmc, hmt⟩
          have hsubf : parentFilter sub t' = [] := by
            by_cases hc : n.HasChild
            · rw [if_pos hc] at hsub
              obtain ⟨f, rfl, hpl⟩ := processNode_elim hsub
              have hndsub : (n.NodeToken :: nodeTokens sub).Nodup := by
                simp only [List.nodup_cons]
                exact ⟨hnsub, hsubnd⟩
              refine (ihf f (by omega) (children n.NodeToken) sub n.NodeToken
                hpl (fun d hd => honest n.NodeToken d hd) hndsub t').2.2
                (fun hh => hntail (hh ▸ ht'tail)) ?_
              rintro ⟨m2, hm2, _, hmt2⟩
              exact hdisj (hmt2 ▸ mem_nodeTokens.mpr ⟨m2, hm2, rfl⟩) ht'tail
            · rw [if_neg hc] at hsub
              injection hsub with hsub
              rw [← hsub]
              rfl
          rw [hsubf, htailf]
          rfl
      · -- t' unexplored: nothing points at it
        intro hne hnexp
        rw [parentFilter_cons,
          if_neg (by intro hh; exact hne (by rw [← hh]; exact hnpt)),
          parentFilter_append]
        have htailf : parentFilter tail t' = [] := by
          refine (ihtail t').2.2 hne ?_
          rintro ⟨m2, hm2, hmc2, hmt2⟩
          exact hnexp ⟨m2, by simp [hm2], hmc2, hmt2⟩
        have hsubf : parentFilter sub t' = [] := by
          by_cases hc : n.HasChild
          · rw [if_pos hc] at hsub
            obtain ⟨f, rfl, hpl⟩ := processNode_elim hsub
            have hndsub : (n.NodeToken :: nodeTokens sub).Nodup := by
              simp only [List.nodup_cons]
              exact ⟨hnsub, hsubnd⟩
            have ht'n : t' ≠ n.NodeToken := by
              intro hh
              exact hnexp ⟨n, by simp, hc, hh.symm⟩
            refine (ihf f (by omega) (children n.NodeToken) sub n.NodeToken
              hpl (fun d hd => honest n.NodeToken d hd) hndsub t').2.2 ht'n ?_
            rintro ⟨m2, hm2, hmc2, hmt2⟩
            exact hnexp ⟨m2, by simp [hm2], hmc2, hmt2⟩
          · rw [if_neg hc] at hsub
            injection hsub with hsub
            rw [← hsub]
            rfl
        rw [hsubf, htailf]
        rfl

/-! ### Correctness of `buildPaths` -/

theorem pmUpdate_same (pm : PathMap) (k v : String) :
    pmUpdate pm k v k = some v := by
  simp [pmUpdate]

theorem pmUpdate_other (pm : PathMap) (k v x : String) (h : x ≠ k) :
    pmUpdate pm k v x = pm x := by
  simp [pmUpdate, h]

theorem buildPathsList_nil_elim {allNodes : List Document} {fb : Nat}
    {t path : String} {pm pm' : PathMap}
    (h : buildPathsList allNodes fb t path [] pm = some pm') : pm' = pm := by
  simp only [buildPathsList, buildPathsListAux, Option.some.injEq] at h
  exact h.symm

theorem buildPathsList_cons (allNodes : List Document) (fb : Nat)
    (t path : String) (x : Document) (scanRest : List Document)
    (pm : PathMap) :
    buildPathsList allNodes fb t path (x :: scanRest) pm =
      if x.ParentToken = t then
        if x.HasChild then
          match buildPaths allNodes fb x.NodeToken
              (filepathJoin path (sanitizeFileName x.Name))
              (pmUpdate pm x.NodeToken
                (filepathJoin path (sanitizeFileName x.Name))) with
          | none => none
          | some pm3 => buildPathsList allNodes fb t path scanRest pm3
        else
          buildPathsList allNodes fb t path scanRest
            (pmUpdate pm x.NodeToken
              (filepathJoin path (sanitizeFileName x.Name)))
      else buildPathsList allNodes fb t path scanRest pm := rfl

theorem buildPaths_elim {allNodes : List Document} {fb : Nat}
    {t path : String} {pm pm' : PathMap}
    (h : buildPaths allNodes fb t path pm = some pm') :
    ∃ f, fb = f + 1 ∧
      buildPathsList allNodes f t path allNodes pm = some pm' := by
  cases fb with
  | zero => simp [buildPaths] at h
  | succ f => exact ⟨f, rfl, by simpa [buildPaths, buildPathsList] using h⟩

/-- Central correctness lemma for the `buildPaths` scan.  `L` is the part of
the scan list that matches the current parent token `t`, and `l'` is the
completed traversal of the corresponding remote subtrees.  A successful scan
changes the map exactly on the tokens of `l'`, and gives every node of `l'`
the entry `filepath.Join(parentEntry, SanitizeFileName(name))`. -/
theorem buildPathsList_correct (children : String → List Document)
    (allNodes : List Document)
    (honest : ∀ p, ∀ d ∈ children p, d.ParentToken = p)
    (hfilterAll : ∀ t', ExploredIn allNodes t' →
      parentFilter allNodes t' = children t') :
    ∀ fb t path scanList fa L l' pm pm',
      processList children fa L = some l' →
      (∀ n ∈ L, n.ParentToken = t) →
      parentFilter scanList t = L →
      (nodeTokens l').Nodup →
      t ∉ nodeTokens l' →
      (∀ n ∈ l', n ∈ allNodes) →
      pm t = some path →
      (∀ k ∈ nodeTokens l', pm k = none) →
      buildPathsList allNodes fb t path scanList pm = some pm' →
      (∀ k, k ∉ nodeTokens l' → pm' k = pm k) ∧
      (∀ n ∈ l', ∃ pp, pm' n.ParentToken = some pp ∧
        pm' n.NodeToken = some (filepathJoin pp (sanitizeFileName n.Name))) := by
  intro fb
  induction fb using Nat.strong_induction_on with
  | _ fb ihf =>
    intro t path scanList
    induction scanList with
    | nil =>
      intro fa L l' pm pm' hproc hL hfilter hnd ht hsubset hpmt hdisjpm hbpl
      rw [parentFilter_nil] at hfilter
      rw [← hfilter] at hproc
      rw [processList_nil_elim hproc]
      rw [buildPathsList_nil_elim hbpl]
      exact ⟨fun k _ => rfl, by simp⟩
    | cons x scanRest ihscan =>
      intro fa L l' pm pm' hproc hL hfilter hnd ht hsubset hpmt hdisjpm hbpl
      rw [buildPathsList_cons] at hbpl
      rw [parentFilter_cons] at hfilter
      by_cases hmatch : x.ParentToken = t
      · rw [if_pos hmatch] at hbpl hfilter
        subst hfilter
        obtain ⟨sub, tail, hsub, htail, rfl⟩ := processList_cons_elim hproc
        have hLrest : ∀ n ∈ parentFilter scanRest t, n.ParentToken = t := by
          intro n hn
          have := List.of_mem_filter hn
          simpa using this
        -- decompose the distinctness facts
        have hnd' := hnd
        simp only [nodeTokens_cons, nodeTokens_append, List.nodup_cons,
          List.mem_append, List.nodup_append] at hnd'
        obtain ⟨⟨hxsub, hxtail⟩, hsubnd, htailnd, hdisj⟩ :
            (x.NodeToken ∉ nodeTokens sub ∧ x.NodeToken ∉ nodeTokens tail) ∧
            (nodeTokens sub).Nodup ∧ (nodeTokens tail).Nodup ∧
            List.Disjoint (nodeTokens sub) (nodeTokens tail) := by
          tauto
        have ht' := ht
        simp only [nodeTokens_cons, nodeTokens_append, List.mem_cons,
          List.mem_append] at ht'
        push_neg at ht'
        obtain ⟨htx, htsub, httail⟩ := ht'
        have hxall : x ∈ allNodes := hsubset x (by simp)
        by_cases hc : x.HasChild
        · rw [if_pos hc] at hbpl
          rw [if_pos hc] at hsub
          obtain ⟨fa2, rfl, hpl⟩ := processNode_elim hsub
          split at hbpl
          · simp at hbpl
          · rename_i pm3 hbp
            obtain ⟨f, rfl, hbpl2⟩ := buildPaths_elim hbp
            have hsub3 := ihf f (by omega) x.NodeToken
              (filepathJoin path (sanitizeFileName x.Name)) allNodes fa2
              (children x.NodeToken) sub
              (pmUpdate pm x.NodeToken
                (filepathJoin path (sanitizeFileName x.Name))) pm3
              hpl (fun d hd => honest x.NodeToken d hd)
              (hfilterAll x.NodeToken ⟨x, hxall, hc, rfl⟩)
              hsubnd hxsub (fun n hn => hsubset n (by simp [hn]))
              (pmUpdate_same pm _ _)
              (fun k hk => by
                rw [pmUpdate_other pm _ _ k (fun hkx => hxsub (by rw [← hkx]; exact hk))]
                exact hdisjpm k (by
                  simp only [nodeTokens_cons, nodeTokens_append,
                    List.mem_cons, List.mem_append]
                  exact Or.inr (Or.inl hk)))
              hbpl2
            obtain ⟨frame3, entries3⟩ := hsub3
            have htail3 := ihscan (fa2 + 1) (parentFilter scanRest t) tail pm3
              pm' htail hLrest rfl htailnd httail
              (fun n hn => hsubset n (by simp [hn]))
              (by
                rw [frame3 t htsub,
                  pmUpdate_other pm _ _ t htx]
                exact hpmt)
              (fun k hk => by
                rw [frame3 k (fun hks => hdisj hks hk),
                  pmUpdate_other pm _ _ k (fun hkx => hxtail (by rw [← hkx]; exact hk))]
                exact hdisjpm k (by
                  simp only [nodeTokens_cons, nodeTokens_append,
                    List.mem_cons, List.mem_append]
                  exact Or.inr (Or.inr hk)))
              hbpl
            obtain ⟨frameT, entriesT⟩ := htail3
            constructor
            · intro k hk
              simp only [nodeTokens_cons, nodeTokens_append, List.mem_cons,
                List.mem_append] at hk
              push_neg at hk
              obtain ⟨hk1, hk2, hk3⟩ := hk
              rw [frameT k hk3, frame3 k hk2, pmUpdate_other pm _ _ k hk1]
            · intro n hn
              rcases List.mem_cons.mp hn with rfl | hn2
              · refine ⟨path, ?_, ?_⟩
                · rw [hmatch, frameT t httail, frame3 t htsub,
                    pmUpdate_other pm _ _ t htx]
                  exact hpmt
                · rw [frameT n.NodeToken hxtail, frame3 n.NodeToken hxsub,
                    pmUpdate_same]
              rcases List.mem_append.mp hn2 with hnsub | hntail
              · obtain ⟨pp, h1, h2⟩ := entries3 n hnsub
                have hpnot : n.ParentToken ∉ nodeTokens tail := by
                  rcases processList_parent children honest fa2
                      (children x.NodeToken) sub x.NodeToken hpl
                      (fun d hd => honest x.NodeToken d hd) n hnsub with
                    hp | hp
                  · rw [hp]; exact hxtail
                  · exact fun hmem => hdisj hp hmem
                refine ⟨pp, ?_, ?_⟩
                · rw [frameT n.ParentToken hpnot]
                  exact h1
                · rw [frameT n.NodeToken
                    (fun hmem => hdisj (mem_nodeTokens.mpr ⟨n, hnsub, rfl⟩) hmem)]
                  exact h2
              · exact entriesT n hntail
        · rw [if_neg hc] at hbpl
          rw [if_neg hc] at hsub
          injection hsub with hsub
          subst hsub
          have htail3 := ihscan fa (parentFilter scanRest t) tail
            (pmUpdate pm x.NodeToken
              (filepathJoin path (sanitizeFileName x.Name))) pm'
            htail hLrest rfl htailnd httail
            (fun n hn => hsubset n (by simp [hn]))
            (by rw [pmUpdate_other pm _ _ t htx]; exact hpmt)
            (fun k hk => by
              rw [pmUpdate_other pm _ _ k (fun hkx => hxtail (by rw [← hkx]; exact hk))]
              exact hdisjpm k (by
                simp only [nodeTokens_cons, nodeTokens_append,
                  List.mem_cons, List.mem_append]
                exact Or.inr (Or.inr hk)))
            hbpl
          obtain ⟨frameT, entriesT⟩ := htail3
          constructor
          · intro k hk
            simp only [nodeTokens_cons, nodeTokens_append, List.mem_cons,
              List.mem_append] at hk
            push_neg at hk
            obtain ⟨hk1, _, hk3⟩ := hk
            rw [frameT k hk3, pmUpdate_other pm _ _ k hk1]
          · intro n hn
            rcases List.mem_cons.mp hn with rfl | hn2
            · refine ⟨path, ?_, ?_⟩
              · rw [hmatch, frameT t httail, pmUpdate_other pm _ _ t htx]
                exact hpmt
              · rw [frameT n.NodeToken hxtail, pmUpdate_same]
            rcases List.mem_append.mp hn2 with hnsub | hntail
            · simp at hnsub
            · exact entriesT n hntail
      · rw [if_neg hmatch] at hbpl hfilter
        exact ihscan fa L l' pm pm' hproc hL hfilter hnd ht hsubset hpmt
          hdisjpm hbpl

/-- C4: for every node list returned by tree resolution
(`GetAllChildNodes` against an honest remote listing whose node tokens are
pairwise distinct and distinct from the root) and the path map built from it
by `buildPaths`, the map contains exactly one entry per returned node (every
returned node has an entry, and nothing but the returned nodes and the root
is in the map — a Go map holds at most one entry per key), the root node's
entry equals ".", and every non-root node's entry equals its parent's entry
joined (`filepath.Join`) with the sanitized display name of the node. -/
theorem buildPathMap_spec (children : String → List Document) (root : String)
    (allNodes : List Document) (fa fb : Nat) (pm : PathMap)
    (hproc : getAllChildNodes children fa root = some allNodes)
    (honest : ∀ p, ∀ d ∈ children p, d.ParentToken = p)
    (hnodup : (root :: nodeTokens allNodes).Nodup)
    (hbuild : buildPathMap allNodes root fb = some pm) :
    pm root = some "." ∧
    (∀ n ∈ allNodes, ∃ pp, pm n.ParentToken = some pp ∧
      pm n.NodeToken = some (filepathJoin pp (sanitizeFileName n.Name))) ∧
    (∀ k, k ≠ root → k ∉ nodeTokens allNodes → pm k = none) := by
  obtain ⟨fa2, rfl, hpl⟩ :=
    processNode_elim (by simpa [getAllChildNodes] using hproc)
  obtain ⟨f, rfl, hbpl⟩ := buildPaths_elim (by simpa [buildPathMap] using hbuild)
  have hrootnot : root ∉ nodeTokens allNodes :=
    (List.nodup_cons.mp hnodup).1
  have htokensnd : (nodeTokens allNodes).Nodup :=
    (List.nodup_cons.mp hnodup).2
  have hfl := processList_filter children honest fa2 (children root) allNodes
    root hpl (fun d hd => honest root d hd) hnodup
  have hfilterAll : ∀ t', ExploredIn allNodes t' →
      parentFilter allNodes t' = children t' := by
    intro t' hexp
    rcases Decidable.em (t' = root) with rfl | hne
    · obtain ⟨m, hm, _, hmt⟩ := hexp
      exact absurd (mem_nodeTokens.mpr ⟨m, hm, hmt⟩) hrootnot
    · exact (hfl t').2.1 hne hexp
  have hfroot : parentFilter allNodes root = children root := (hfl root).1 rfl
  obtain ⟨frame, entries⟩ := buildPathsList_correct children allNodes honest
    hfilterAll f root "." allNodes fa2 (children root) allNodes
    (pmUpdate pmEmpty root ".") pm hpl (fun d hd => honest root d hd) hfroot
    htokensnd hrootnot (fun n hn => hn) (pmUpdate_same _ _ _)
    (fun k hk => by
      rw [pmUpdate_other pmEmpty root "." k (fun h => hrootnot (h ▸ hk))]
      rfl)
    hbpl
  refine ⟨?_, entries, ?_⟩
  · rw [frame root hrootnot]
    exact pmUpdate_same _ _ _
  · intro k hk1 hk2
    rw [frame k hk2, pmUpdate_other _ _ _ k hk1]
    rfl

/-- A concrete remote listing: root "R" contains leaf document "D1" and
container "C"; "C" contains leaf document "D2". -/
def wikiChildrenExample : String → List Document := fun p =>
  if p = "R" then
    [⟨"od1", "D1", "Doc1", "docx", "R", false⟩,
     ⟨"oc", "C", "Cat", "docx", "R", true⟩]
  else if p = "C" then
    [⟨"od2", "D2", "Doc2", "docx", "C", false⟩]
  else []

/-- The node list `GetAllChildNodes` discovers on `wikiChildrenExample`. -/
def wikiNodesExample : List Document :=
  [⟨"od1", "D1", "Doc1", "docx", "R", false⟩,
   ⟨"oc", "C", "Cat", "docx", "R", true⟩,
   ⟨"od2", "D2", "Doc2", "docx", "C", false⟩]

/-- Witness for `buildPathMap_spec` on the concrete two-level tree: the built
path map sends the root to ".", "C" to "Cat", "D2" to "Cat/Doc2", and knows
no other key. -/
theorem buildPathMap_spec_witness :
    (buildPathMap wikiNodesExample "R" 3).map
      (fun pm => (pm "R", pm "C", pm "D2", pm "X")) =
      some (some ".", some "Cat", some "Cat/Doc2", none) := by
  have hproc : getAllChildNodes wikiChildrenExample 3 "R" =
      some wikiNodesExample := by decide
  have honest : ∀ p, ∀ d ∈ wikiChildrenExample p, d.ParentToken = p := by
    intro p d hd
    unfold wikiChildrenExample at hd
    split at hd
    · rename_i hp
      subst hp
      simp only [List.mem_cons, List.not_mem_nil, or_false] at hd
      rcases hd with rfl | rfl
      · rfl
      · rfl
    · split at hd
      · rename_i hp
        subst hp
        simp only [List.mem_cons, List.not_mem_nil, or_false] at hd
        subst hd
        rfl
      · simp at hd
  have hsome : (buildPathMap wikiNodesExample "R" 3).isSome = true := by decide
  obtain ⟨pm, hbm⟩ := Option.isSome_iff_exists.mp hsome
  obtain ⟨hroot, hentries, hnone⟩ := buildPathMap_spec wikiChildrenExample "R"
    wikiNodesExample 3 3 pm hproc honest (by decide) hbm
  obtain ⟨ppC, hC1, hC2⟩ :=
    hentries ⟨"oc", "C", "Cat", "docx", "R", true⟩ (by decide)
  obtain ⟨ppD2, hD1, hD2⟩ :=
    hentries ⟨"od2", "D2", "Doc2", "docx", "C", false⟩ (by decide)
  have hC1' : pm "R" = some ppC := hC1
  have hC2' : pm "C" = some (filepathJoin ppC (sanitizeFileName "Cat")) := hC2
  have hD1' : pm "C" = some ppD2 := hD1
  have hD2' : pm "D2" = some (filepathJoin ppD2 (sanitizeFileName "Doc2")) :=
    hD2
  rw [hroot] at hC1'
  injection hC1' with hC1'
  subst hC1'
  rw [hC2'] at hD1'
  injection hD1' with hD1'
  subst hD1'
  rw [hbm]
  show some (pm "R", pm "C", pm "D2", pm "X") = _
  rw [hroot, hC2', hD2', hnone "X" (by decide) (by decide)]
  decide

/-! ## C2: the error-collecting scheduler of `downloadWikiChildren`
(cmd/download.go, part_001:1852-1917)

The concurrent phase is modelled as a small-step transition system.  The
launch loop has already run (the main goroutine launches every task before it
reaches `for err := range errChan`, blocking on the semaphore as needed, and
the semaphore only bounds how many tasks run at once — it does not restrict
which interleavings of completions are possible).  A state tracks, for each
launched task, whether it has finished; the buffered error channel contents
(`queue`, FIFO — the channel's capacity is `len(allNodes)`, and each task
sends at most one error, so a send never blocks); the send history (`sent`);
whether the channel has been closed by the `wg.Wait()` goroutine; and what
the `for err := range errChan` loop has returned (`ret = none`: still
looping; `some (some e)`: returned error `e`; `some none`: channel closed
with no pending error, function proceeds past the loop).  `outcome i` is what
task `i` eventually does: finish cleanly or send error `e` (errors are
numbered). -/

/-- What a launched per-document task eventually does. -/
inductive TaskOutcome where
  | ok : TaskOutcome
  | fail (e : Nat) : TaskOutcome
deriving DecidableEq, Repr

/-- State of the collection phase for `n` launched tasks. -/
structure SchedState (n : Nat) where
  finished : Fin n → Bool
  queue : List Nat
  sent : List Nat
  closed : Bool
  ret : Option (Option Nat)

/-- All tasks launched, nothing finished, channel open, loop not returned. -/
def initSched (n : Nat) : SchedState n :=
  { finished := fun _ => false, queue := [], sent := [], closed := false,
    ret := none }

/-- One step of the collection phase. -/
inductive SchedStep {n : Nat} (outcome : Fin n → TaskOutcome) :
    SchedState n → SchedState n → Prop where
  | finishOk (s : SchedState n) (i : Fin n) :
      s.finished i = false → outcome i = TaskOutcome.ok →
      SchedStep outcome s
        { s with finished := Function.update s.finished i true }
  | finishFail (s : SchedState n) (i : Fin n) (e : Nat) :
      s.finished i = false → outcome i = TaskOutcome.fail e →
      SchedStep outcome s
        { s with
            finished := Function.update s.finished i true,
            queue := s.queue ++ [e],
            sent := s.sent ++ [e] }
  | closeChan (s : SchedState n) :
      (∀ i, s.finished i = true) → s.closed = false →
      SchedStep outcome s { s with closed := true }
  | recvErr (s : SchedState n) (e : Nat) (q : List Nat) :
      s.ret = none → s.queue = e :: q →
      SchedStep outcome s { s with queue := q, ret := some (some e) }
  | recvClosed (s : SchedState n) :
      s.ret = none → s.closed = true → s.queue = [] →
      SchedStep outcome s { s with ret := some none }

/-- Reachability of the collection phase from its initial state. -/
def SchedReachable {n : Nat} (outcome : Fin n → TaskOutcome)
    (s : SchedState n) : Prop :=
  Relation.ReflTransGen (SchedStep outcome) (initSched n) s

/-- Two tasks; task 0 fails with error 7, task 1 succeeds. -/
def schedOutcomeCX : Fin 2 → TaskOutcome :=
  fun i => if i = 0 then TaskOutcome.fail 7 else TaskOutcome.ok

/-- The state after task 0 fails (task 1 still running). -/
def schedCXmid : SchedState 2 :=
  { initSched 2 with
      finished := Function.update (initSched 2).finished 0 true,
      queue := (initSched 2).queue ++ [7],
      sent := (initSched 2).sent ++ [7] }

/-- The state after the collection loop receives error 7 and returns it. -/
def schedCXfinal : SchedState 2 :=
  { schedCXmid with queue := [], ret := some (some 7) }

/-- C2 counterexample: the claim "the first captured error is returned to the
caller only after all tasks finish" is false of the code: with two launched
tasks of which task 0 fails, the collection loop can receive the buffered
error and return it while task 1 is still in flight. -/
theorem downloadWikiChildren_returns_before_completion :
    ¬ (∀ s : SchedState 2, SchedReachable schedOutcomeCX s →
        ∀ e, s.ret = some (some e) → ∀ i, s.finished i = true) := by
  intro hclaim
  have h1 : SchedStep schedOutcomeCX (initSched 2) schedCXmid :=
    SchedStep.finishFail (initSched 2) 0 7 rfl rfl
  have h2 : SchedStep schedOutcomeCX schedCXmid schedCXfinal :=
    SchedStep.recvErr schedCXmid 7 [] rfl rfl
  have hreach : SchedReachable schedOutcomeCX schedCXfinal :=
    Relation.ReflTransGen.tail (Relation.ReflTransGen.tail
      Relation.ReflTransGen.refl h1) h2
  have := hclaim schedCXfinal hreach 7 rfl 1
  simp only [schedCXfinal, schedCXmid, initSched] at this
  rw [Function.update_noteq (by decide)] at this
  exact absurd this (by decide)

/-- The invariant of the collection phase. -/
def SchedInv {n : Nat} (outcome : Fin n → TaskOutcome)
    (s : SchedState n) : Prop :=
  (s.ret = none → s.queue = s.sent) ∧
  (∀ e, s.ret = some (some e) → s.sent.head? = some e) ∧
  (s.closed = true → ∀ i, s.finished i = true) ∧
  (s.ret = some none → s.closed = true) ∧
  (s.ret = some none → s.sent = []) ∧
  (∀ e ∈ s.sent, ∃ i, outcome i = TaskOutcome.fail e ∧ s.finished i = true)

theorem schedInv_reachable {n : Nat} (outcome : Fin n → TaskOutcome)
    (s : SchedState n) (hreach : SchedReachable outcome s) :
    SchedInv outcome s := by
  induction hreach with
  | refl =>
    refine ⟨fun _ => rfl, fun e he => by simp [initSched] at he,
      fun hc => by simp [initSched] at hc,
      fun hr => by simp [initSched] at hr,
      fun _ => rfl, fun e he => by simp [initSched] at he⟩
  | tail hab hstep ih =>
    obtain ⟨hq, hfirst, hclosed, hretc, hretn, hprov⟩ := ih
    cases hstep with
    | finishOk i hfin hout =>
      rename SchedState _ => b
      refine ⟨hq, hfirst, ?_, hretc, hretn, ?_⟩
      · intro hc
        exact absurd (hclosed hc i) (by simp [hfin])
      · intro e he
        obtain ⟨j, hj1, hj2⟩ := hprov e he
        refine ⟨j, hj1, ?_⟩
        show Function.update b.finished i true j = true
        rcases Decidable.em (j = i) with rfl | hne
        · simp [Function.update_same]
        · rw [Function.update_noteq hne]
          exact hj2
    | finishFail i e hfin hout =>
      rename SchedState _ => b
      have hnotclosed : ¬ b.closed = true :=
        fun hc => absurd (hclosed hc i) (by simp [hfin])
      have hretnone2 : ¬ b.ret = some none := fun hr => hnotclosed (hretc hr)
      refine ⟨?_, ?_, ?_, ?_, ?_, ?_⟩
      · intro hr
        show b.queue ++ [e] = b.sent ++ [e]
        rw [hq hr]
      · intro e2 he2
        have h0 : b.sent.head? = some e2 := hfirst e2 he2
        show (b.sent ++ [e]).head? = some e2
        cases hsent : b.sent with
        | nil =>
          rw [hsent] at h0
          simp at h0
        | cons a as =>
          rw [hsent] at h0
          simpa using h0
      · intro hc
        exact absurd hc hnotclosed
      · intro hr
        exact absurd hr hretnone2
      · intro hr
        exact absurd hr hretnone2
      · intro e2 he2
        have he2' : e2 ∈ b.sent ++ [e] := he2
        rcases List.mem_append.mp he2' with h | h
        · obtain ⟨j, hj1, hj2⟩ := hprov e2 h
          refine ⟨j, hj1, ?_⟩
          show Function.update b.finished i true j = true
          rcases Decidable.em (j = i) with rfl | hne
          · simp [Function.update_same]
          · rw [Function.update_noteq hne]
            exact hj2
        · simp only [List.mem_singleton] at h
          subst h
          refine ⟨i, hout, ?_⟩
          show Function.update b.finished i true i = true
          simp [Function.update_same]
    | closeChan hall hcl =>
      exact ⟨hq, hfirst, fun _ => hall, fun _ => rfl, hretn, hprov⟩
    | recvErr e q hr hqe =>
      rename SchedState _ => b
      refine ⟨fun h => by simp at h, ?_, hclosed, fun h => by simp at h,
        fun h => by simp at h, hprov⟩
      intro e2 he2
      have he2' : some (some e) = some (some e2) := he2
      simp only [Option.some.injEq] at he2'
      subst he2'
      show b.sent.head? = some e
      rw [← hq hr, hqe]
      rfl
    | recvClosed hr hcl hqe =>
      rename SchedState _ => b
      refine ⟨fun h => by simp at h, fun e2 he2 => by simp at he2,
        hclosed, fun _ => hcl, ?_, hprov⟩
      intro _
      show b.sent = []
      rw [← hq hr, hqe]

/-- C2 amended: in every reachable state of the collection phase, (a) if the
loop has returned an error, that error is the first captured error (the head
of the send history) and it is the outcome of some launched failing task;
(b) if the loop fell through with no error, no error was ever captured; and
(c) a failing task never stops the other in-flight tasks: every unfinished
task can still take its completion step, which leaves every other task's
status and the returned value untouched.  (The error may however be returned
*before* the remaining tasks finish — see the counterexample.) -/
theorem downloadWikiChildren_error_collection {n : Nat}
    (outcome : Fin n → TaskOutcome) (s : SchedState n)
    (hreach : SchedReachable outcome s) :
    (∀ e, s.ret = some (some e) →
      s.sent.head? = some e ∧ ∃ i, outcome i = TaskOutcome.fail e) ∧
    (s.ret = some none → s.sent = []) ∧
    (∀ i, s.finished i = false → ∃ s', SchedStep outcome s s' ∧
      s'.finished i = true ∧ (∀ j, j ≠ i → s'.finished j = s.finished j) ∧
      s'.ret = s.ret) := by
  obtain ⟨hq, hfirst, hclosed, hretc, hretn, hprov⟩ :=
    schedInv_reachable outcome s hreach
  refine ⟨?_, hretn, ?_⟩
  · intro e he
    have h1 := hfirst e he
    refine ⟨h1, ?_⟩
    have hmem : e ∈ s.sent := by
      cases hs : s.sent with
      | nil => rw [hs] at h1; simp at h1
      | cons a as =>
        rw [hs] at h1
        simp only [List.head?_cons, Option.some.injEq] at h1
        subst h1
        exact List.mem_cons_self _ _
    obtain ⟨i, hi, _⟩ := hprov e hmem
    exact ⟨i, hi⟩
  · intro i hfin
    cases hout : outcome i with
    | ok =>
      refine ⟨_, SchedStep.finishOk s i hfin hout, ?_, ?_, rfl⟩
      · simp [Function.update_same]
      · intro j hj
        exact Function.update_noteq hj _ _
    | fail e =>
      refine ⟨_, SchedStep.finishFail s i e hfin hout, ?_, ?_, rfl⟩
      · simp [Function.update_same]
      · intro j hj
        exact Function.update_noteq hj _ _

/-- Witness for `downloadWikiChildren_error_collection` at the initial state
with one failing task: the task can still complete. -/
theorem downloadWikiChildren_error_collection_witness :
    ∃ s', SchedStep (fun _ : Fin 1 => TaskOutcome.fail 5) (initSched 1) s' ∧
      s'.finished 0 = true ∧
      (∀ j, j ≠ (0 : Fin 1) → s'.finished j = (initSched 1).finished j) ∧
      s'.ret = (initSched 1).ret :=
  (downloadWikiChildren_error_collection (fun _ => TaskOutcome.fail 5)
    (initSched 1) Relation.ReflTransGen.refl).2.2 0 rfl

/-! ## C3: rate limiting of the tree-resolution listing calls
(core/client.go:571-608 `GetWikiNodeList`, 621-663 `GetChildNodes`)

The remote responds to a wiki listing request keyed by the requested page
token ("" = first page); `none` is a transport error.  Each client function
is embedded together with the trace of externally visible events it
produces: `wait` (a completed `FeishuRateLimiter.Wait`) and
`listRequest pt` (an HTTP listing request with page token `pt`).  The run is
modelled with an uncancelled context, so every `Wait` the code performs
succeeds. -/

/-- The fields of `lark.GetWikiNodeListRespItem` the client reads. -/
structure WikiItem where
  ObjToken : String
  NodeToken : String
  Title : String
  ObjType : String
  ParentNodeToken : String
  HasChild : Bool
deriving DecidableEq, Repr

/-- One page of a wiki node listing response. -/
structure WikiPage where
  Items : List WikiItem
  PageToken : String
  HasMore : Bool
deriving DecidableEq, Repr

/-- Externally visible events of a client call. -/
inductive ApiEvent where
  | wait : ApiEvent
  | listRequest (pageToken : String) : ApiEvent
deriving DecidableEq, Repr

/-- `item` converted to a `Document` (core/client.go:643-653). -/
def WikiItem.toDocument (item : WikiItem) : Document :=
  ⟨item.ObjToken, item.NodeToken, item.Title, item.ObjType,
   item.ParentNodeToken, item.HasChild⟩

/-- The pagination loop of `Client.GetChildNodes` (core/client.go:625-660):
request a page, convert its items, and continue while the response has more
pages and a non-empty page token.  No iteration consults the rate limiter.
Go's loop is unbounded; `fuel` bounds the number of iterations and the
fuel-exhausted branch is unreachable for any remote that eventually reports
no more pages. -/
def getChildNodesLoop (remote : String → Option WikiPage) :
    Nat → String → List ApiEvent → List Document →
    List ApiEvent × Option (List Document)
  | 0, _, evs, _ => (evs, none)
  | fuel + 1, pageToken, evs, acc =>
    match remote pageToken with
    | none => (evs ++ [ApiEvent.listRequest pageToken], none)
    | some resp =>
      let evs2 := evs ++ [ApiEvent.listRequest pageToken]
      let acc2 := acc ++ resp.Items.map WikiItem.toDocument
      if resp.HasMore = false ∨ resp.PageToken = "" then (evs2, some acc2)
      else getChildNodesLoop remote fuel resp.PageToken evs2 acc2

/-- `Client.GetChildNodes`: all direct children of a parent node, fetched
page by page, with the event trace of the call. -/
def getChildNodes (remote : String → Option WikiPage) (fuel : Nat) :
    List ApiEvent × Option (List Document) :=
  getChildNodesLoop remote fuel "" [] []

/-- `Client.GetWikiNodeList` (core/client.go:571-608): one `Wait` on the
rate limiter, then the first listing request; the continuation loop
`for resp.HasMore && previousPageToken != resp.PageToken` re-declares `resp`
with `:=` inside its body, shadowing the outer `resp`, so the loop condition
always reads the first response and the loop runs at most once — and its
request is issued without any rate-limiter wait. -/
def getWikiNodeList (remote : String → Option WikiPage) :
    List ApiEvent × Option (List WikiItem) :=
  let evs0 := [ApiEvent.wait, ApiEvent.listRequest ""]
  match remote "" with
  | none => (evs0, none)
  | some resp =>
    if resp.HasMore = true ∧ "" ≠ resp.PageToken then
      match remote resp.PageToken with
      | none => (evs0 ++ [ApiEvent.listRequest resp.PageToken], none)
      | some resp2 =>
        (evs0 ++ [ApiEvent.listRequest resp.PageToken],
         some (resp.Items ++ resp2.Items))
    else (evs0, some resp.Items)

/-- A trace is rate-limited when every listing request consumes one
previously completed wait (`w` counts completed waits not yet matched to a
request). -/
def rateLimitedTrace : List ApiEvent → Nat → Bool
  | [], _ => true
  | ApiEvent.wait :: rest, w => rateLimitedTrace rest (w + 1)
  | ApiEvent.listRequest _ :: rest, w =>
    if w = 0 then false else rateLimitedTrace rest (w - 1)

/-- A remote with two pages of children under one parent. -/
def wikiRemoteExample : String → Option WikiPage := fun pt =>
  if pt = "" then
    some ⟨[⟨"o1", "N1", "First", "docx", "P", false⟩], "p2", true⟩
  else if pt = "p2" then
    some ⟨[⟨"o2", "N2", "Second", "docx", "P", false⟩], "", false⟩
  else none

/-- C3: the claim "every page fetched by GetChildNodes / GetAllChildNodes and
by GetWikiNodeList is preceded by a successful RateLimiter wait" is violated
by the code: on a two-page listing, `GetChildNodes` completes successfully
after issuing two listing requests and zero rate-limiter waits, and
`GetWikiNodeList` waits only once before its first request, issuing the
continuation-page request without a wait.  (The code's own comments state
that every paginated API call must go through the limiter — see
`GetDocxContent` — and `NewClient` removes the SDK's built-in limiter in
favour of it, so this is a slip in the code rather than in the
specification.) -/
theorem getChildNodes_listing_unthrottled :
    (getChildNodes wikiRemoteExample 5).1 =
      [ApiEvent.listRequest "", ApiEvent.listRequest "p2"] ∧
    (getChildNodes wikiRemoteExample 5).1.countP
      (fun e => decide (e = ApiEvent.wait)) = 0 ∧
    (getChildNodes wikiRemoteExample 5).2 =
      some [⟨"o1", "N1", "First", "docx", "P", false⟩,
            ⟨"o2", "N2", "Second", "docx", "P", false⟩] ∧
    rateLimitedTrace (getChildNodes wikiRemoteExample 5).1 0 = false ∧
    (getWikiNodeList wikiRemoteExample).1 =
      [ApiEvent.wait, ApiEvent.listRequest "", ApiEvent.listRequest "p2"] ∧
    rateLimitedTrace (getWikiNodeList wikiRemoteExample).1 0 = false := by
  decide

/-! ## C6, C7, C8: the per-document image pipeline
(part_001:1336-1465 `downloadDocument`, core/client.go:312-403
`DownloadImage` / `findExistingLocalImage`, part_004:100-169 `BatchUpload` /
`extractTokenFromPath`, part_004:256-264 `GetCached`)

External effects are oracles in `ImgEnv`:
* `cached`: the durable upload cache (`picgo.GetCached`, the lazily loaded
  `.feishu2md/upload-cache.json` map) at the start of the document;
* `localImage outDir token`: `findExistingLocalImage` — the base name of an
  existing file matching `outDir/token.*`, if any;
* `fetch token`: `Drive.DownloadDriveMedia` — `none` is a transport error,
  `some filename` is a successful response with that attachment file name;
* `fsFail token`: whether the local directory/file creation or write of the
  fetched bytes fails (the PNG re-compression path only changes the bytes
  written, never the returned link or the fetch count);
* `upload path`: the picgo CLI upload of a local file — `none` is a failure;
* `ctxCancelled`: whether the caller's context is cancelled at the
  rate-limiter wait.

The 16-worker pool of `downloadDocument` and the 10-worker pool of
`BatchUpload` are sequentialized: the per-token results, the collected map
and the counters are independent of completion order, so the embedding
processes tokens in deduplicated order. -/

structure ImgEnv where
  picgoEnabled : Bool
  cached : String → Option String
  localImage : String → String → Option String
  fetch : String → Option String
  fsFail : String → Bool
  upload : String → Option String
  ctxCancelled : Bool

/-- Go `filepath.Base` on Unix: strip trailing separators and keep the last
element ("." for the empty path, "/" when everything is a separator). -/
def goBase (path : String) : String :=
  if path = "" then "."
  else
    let stripped := path.data.reverse.dropWhile (fun c => c = '/')
    let name := stripped.takeWhile (fun c => c ≠ '/')
    if name = [] then "/" else ⟨name.reverse⟩

/-- Go `filepath.Ext`: the suffix of the last element starting at its final
dot ("" when the last element has no dot). -/
def goExtLoop : List Char → List Char → String
  | _, [] => ""
  | acc, c :: rest =>
    if c = '/' then "" else if c = '.' then ⟨'.' :: acc⟩
    else goExtLoop (c :: acc) rest

def goExt (path : String) : String :=
  goExtLoop [] path.data.reverse

/-- `Client.DownloadImage` (core/client.go:312-390): reuse an existing local
file under the token's name without touching the limiter or the network;
otherwise wait on the limiter, fetch the asset, and write it under
`token + ext` (".png" when the response has no extension).  `link` is the
relative path returned on success (`none` on any error); `fetches` counts
the `DownloadDriveMedia` requests issued. -/
def downloadImage (env : ImgEnv) (imgToken outDir : String) :
    Option String × Nat :=
  match env.localImage outDir imgToken with
  | some existingBase =>
    (some ("./" ++ goBase outDir ++ "/" ++ existingBase), 0)
  | none =>
    if env.ctxCancelled = true then (none, 0)
    else
      match env.fetch imgToken with
      | none => (none, 1)
      | some respFilename =>
        let fileext := if goExt respFilename = "" then ".png"
                       else goExt respFilename
        if env.fsFail imgToken = true then (none, 1)
        else (some ("./" ++ goBase outDir ++ "/" ++ imgToken ++ fileext), 1)

/-- The per-token result record of the worker (part_001:1353-1358). -/
structure WorkerResult where
  token : String
  link : String
  fromCache : Bool
  needUpload : Bool
  err : Bool
deriving DecidableEq, Repr

/-- The worker of `downloadDocument` (part_001:1363-1388): consult the
upload cache when the picgo integration is enabled, otherwise download (or
reuse a local file) through `DownloadImage`, marking successful downloads
for upload when picgo is enabled.  Returns the result record and the number
of network fetches performed. -/
def workerStep (env : ImgEnv) (outImgDir token : String) :
    WorkerResult × Nat :=
  let downloadBranch : WorkerResult × Nat :=
    match downloadImage env token outImgDir with
    | (none, n) => (⟨token, "", false, false, true⟩, n)
    | (some localLink, n) =>
      if env.picgoEnabled = true then (⟨token, localLink, false, true, false⟩, n)
      else (⟨token, localLink, false, false, false⟩, n)
  if env.picgoEnabled = true then
    match env.cached token with
    | some cachedURL => (⟨token, cachedURL, true, false, false⟩, 0)
    | none => downloadBranch
  else downloadBranch

/-- The token deduplication of `downloadDocument` (part_001:1338-1346): a
`seen` set and an output slice preserving first occurrences. -/
def dedupStep (p : List String × List String) (t : String) :
    List String × List String :=
  if t ∈ p.1 then p else (t :: p.1, p.2 ++ [t])

def dedupTokens (l : List String) : List String :=
  (l.foldl dedupStep ([], [])).2

/-- The collection state of `downloadDocument` (part_001:1398-1401). -/
structure CollectState where
  tokenToLink : String → Option String
  needUpload : List (String × String)
  successCount : Nat
  cacheHitCount : Nat

/-- One iteration of the collection loop (part_001:1403-1417): a failed
download is logged and skipped; otherwise the link is recorded, and
non-cache-hit downloads marked `needUpload` are queued for upload. -/
def collectStep (acc : CollectState) (r : WorkerResult) : CollectState :=
  if r.err = true then acc
  else
    { tokenToLink := fun x => if x = r.token then some r.link
                              else acc.tokenToLink x,
      needUpload := if r.fromCache = false ∧ r.needUpload = true
                    then acc.needUpload ++ [(r.token, r.link)]
                    else acc.needUpload,
      successCount := acc.successCount + 1,
      cacheHitCount := if r.fromCache = true then acc.cacheHitCount + 1
                       else acc.cacheHitCount }

def collectInit : CollectState :=
  { tokenToLink := fun _ => none, needUpload := [], successCount := 0,
    cacheHitCount := 0 }

/-- `picgo.extractTokenFromPath` (part_004:156-169): the last path element
with its extension stripped when the final dot is not the first character. -/
def extractTokenFromPath (filePath : String) : String :=
  let parts := splitOnChar '/' filePath.data
  let filename := parts.getLastD []
  let afterRev := filename.reverse.dropWhile (fun c => c ≠ '.')
  match afterRev with
  | [] => ⟨filename⟩
  | _ :: prefixRev => if prefixRev = [] then ⟨filename⟩ else ⟨prefixRev.reverse⟩

/-- One task of `picgo.BatchUpload` (part_004:116-148): re-check the upload
cache under the token extracted from the file name; on a miss, upload the
file (a failure is logged and produces no result entry; a success is
recorded and persisted to the cache asynchronously).  Returns the result
entry, if any, and the paths passed to the picgo CLI. -/
def batchUploadOne (env : ImgEnv) (filePath : String) :
    Option (String × String) × List String :=
  let token := extractTokenFromPath filePath
  match (if token = "" then none else env.cached token) with
  | some cachedURL => (some (filePath, cachedURL), [])
  | none =>
    match env.upload filePath with
    | none => (none, [filePath])
    | some url => (some (filePath, url), [filePath])

/-- `picgo.BatchUpload` (part_004:100-153): the successful
`localPath -> URL` entries and the upload attempts, over all file paths. -/
def batchUpload (env : ImgEnv) (filePaths : List String) :
    List (String × String) × List String :=
  filePaths.foldl
    (fun acc p =>
      let r := batchUploadOne env p
      (acc.1 ++ r.1.toList, acc.2 ++ r.2))
    ([], [])

/-- The outcome of the image section of `downloadDocument`. -/
structure ImgSectionResult where
  tokenToLink : String → Option String
  fetchedTokens : List String
  uploadAttempts : List String
  successCount : Nat
  cacheHitCount : Nat

/-- The image section of `downloadDocument` (part_001:1336-1465): dedup the
tokens, resolve each unique token through the worker, collect the results,
and, when picgo is enabled and something needs uploading, batch-upload the
freshly downloaded files and point their tokens at the returned URLs
(`tokenByPath` is the reverse map from full local path to token; a Go map
lookup of a missing key yields ""). -/
def imgSection (env : ImgEnv) (outputDir imageDir : String)
    (imgTokens : List String) : ImgSectionResult :=
  let uniqueTokens := dedupTokens imgTokens
  let outImgDir := filepathJoin outputDir imageDir
  let results := uniqueTokens.map (fun t => (workerStep env outImgDir t).1)
  let fetched := uniqueTokens.filter
    (fun t => decide ((workerStep env outImgDir t).2 ≠ 0))
  let collect := results.foldl collectStep collectInit
  if 0 < collect.successCount ∧ env.picgoEnabled = true ∧
      collect.needUpload ≠ [] then
    let localPaths := collect.needUpload.map
      (fun pr => filepathJoin outputDir pr.2)
    let tokenByPath := collect.needUpload.map
      (fun pr => (filepathJoin outputDir pr.2, pr.1))
    let uploaded := batchUpload env localPaths
    let finalMap := uploaded.1.foldl
      (fun m pr =>
        let token := (tokenByPath.lookup pr.1).getD ""
        fun x => if x = token then some pr.2 else m x)
      collect.tokenToLink
    { tokenToLink := finalMap, fetchedTokens := fetched,
      uploadAttempts := uploaded.2, successCount := collect.successCount,
      cacheHitCount := collect.cacheHitCount }
  else
    { tokenToLink := collect.tokenToLink, fetchedTokens := fetched,
      uploadAttempts := [], successCount := collect.successCount,
      cacheHitCount := collect.cacheHitCount }

/-- The tail of `downloadDocument` after the image section
(part_001:1467-1595): formatting, frontmatter and the markdown write.  The
image section contributes no error path — after it, the function can fail
only at directory creation or at the file writes. -/
def downloadDocumentModel (env : ImgEnv) (outputDir imageDir : String)
    (imgTokens : List String) (mkdirOk writeOk : Bool) :
    Except String Unit :=
  let _ := imgSection env outputDir imageDir imgTokens
  if mkdirOk = false then Except.error "mkdir failed"
  else if writeOk = false then Except.error "write failed"
  else Except.ok ()

/-! ### Deduplication: the output lists each body token exactly once. -/

theorem dedup_fold_spec (l : List String) :
    ∀ seen acc : List String,
      (∀ s, s ∈ seen ↔ s ∈ acc) → acc.Nodup →
      (l.foldl dedupStep (seen, acc)).2.Nodup ∧
      (∀ s, s ∈ (l.foldl dedupStep (seen, acc)).2 ↔ s ∈ acc ∨ s ∈ l) := by
  induction l with
  | nil =>
    intro seen acc _ hnd
    exact ⟨hnd, fun s => by simp⟩
  | cons x xs ih =>
    intro seen acc hiff hnd
    by_cases hx : x ∈ seen
    · have hstep : dedupStep (seen, acc) x = (seen, acc) := by
        simp [dedupStep, hx]
      rw [List.foldl_cons, hstep]
      obtain ⟨h1, h2⟩ := ih seen acc hiff hnd
      refine ⟨h1, fun s => ?_⟩
      rw [h2, List.mem_cons]
      constructor
      · rintro (h | h)
        · exact Or.inl h
        · exact Or.inr (Or.inr h)
      · rintro (h | h | h)
        · exact Or.inl h
        · exact Or.inl ((hiff s).mp (h ▸ hx))
        · exact Or.inr h
    · have hstep : dedupStep (seen, acc) x = (x :: seen, acc ++ [x]) := by
        simp [dedupStep, hx]
      rw [List.foldl_cons, hstep]
      have hiff' : ∀ s, s ∈ x :: seen ↔ s ∈ acc ++ [x] := by
        intro s
        rw [List.mem_cons, List.mem_append, List.mem_singleton, hiff]
        tauto
      have hxacc : x ∉ acc := fun hc => hx ((hiff x).mpr hc)
      have hnd' : (acc ++ [x]).Nodup := by
        rw [List.nodup_append]
        exact ⟨hnd, List.nodup_singleton x,
          fun a ha hb => by rw [List.mem_singleton] at hb; exact hxacc (hb ▸ ha)⟩
      obtain ⟨h1, h2⟩ := ih _ _ hiff' hnd'
      refine ⟨h1, fun s => ?_⟩
      rw [h2, List.mem_append, List.mem_singleton, List.mem_cons]
      tauto

theorem dedupTokens_nodup_mem (l : List String) :
    (dedupTokens l).Nodup ∧ ∀ s, s ∈ dedupTokens l ↔ s ∈ l := by
  have h := dedup_fold_spec l [] [] (fun s => by simp) List.nodup_nil
  exact ⟨h.1, fun s => by unfold dedupTokens; rw [h.2 s]; simp⟩

theorem dedupTokens_count (l : List String) (t : String) :
    (dedupTokens l).count t = if t ∈ l then 1 else 0 := by
  obtain ⟨hnd, hmem⟩ := dedupTokens_nodup_mem l
  by_cases h : t ∈ l
  · rw [if_pos h]
    exact List.count_eq_one_of_mem hnd ((hmem t).mpr h)
  · rw [if_neg h]
    exact List.count_eq_zero_of_not_mem (fun hc => h ((hmem t).mp hc))

theorem dedup_fold_mem_fix (t : String) (m : Nat)
    (p : List String × List String) (hp : t ∈ p.1) :
    (List.replicate m t).foldl dedupStep p = p := by
  induction m with
  | zero => rfl
  | succ n ih =>
    rw [List.replicate_succ, List.foldl_cons]
    have hstep : dedupStep p t = p := by simp [dedupStep, hp]
    rw [hstep]
    exact ih

theorem dedupTokens_replicate (t : String) (n : Nat) (hn : n ≠ 0) :
    dedupTokens (List.replicate n t) = [t] := by
  cases n with
  | zero => exact absurd rfl hn
  | succ m =>
    unfold dedupTokens
    rw [List.replicate_succ, List.foldl_cons]
    have h1 : dedupStep ([], []) t = ([t], [t]) := by simp [dedupStep]
    rw [h1, dedup_fold_mem_fix t m ([t], [t]) (by simp)]

/-! ### C7: the layered caches of the worker -/

/-- The worker result always carries the input token. -/
theorem workerStep_token (env : ImgEnv) (d t : String) :
    (workerStep env d t).1.token = t := by
  unfold workerStep
  rcases hdl : downloadImage env t d with ⟨o, n⟩
  rcases o with _ | link <;>
    rcases hen : env.picgoEnabled <;>
      rcases hc : env.cached t with _ | u <;>
        simp [hdl, hen, hc]

/-- An environment with `tok` in the durable upload cache but picgo
disabled: the cache layer is skipped and a network fetch happens. -/
def imgEnvC7cx : ImgEnv :=
  { picgoEnabled := false,
    cached := fun s => if s = "tok" then some "https://cdn/tok.png" else none,
    localImage := fun _ _ => none,
    fetch := fun _ => some "f.png",
    fsFail := fun _ => false,
    upload := fun _ => none,
    ctxCancelled := false }

/-- The same cache contents with picgo enabled: the cache layer answers. -/
def imgEnvC7w : ImgEnv :=
  { imgEnvC7cx with picgoEnabled := true }

/-- C7: As frozen the claim is FALSE: the durable upload cache is consulted
only when the picgo integration is enabled.  With picgo disabled, a token
present in the durable cache (`.feishu2md/upload-cache.json` persists on
disk) and with no matching local file is re-fetched from the network. -/
theorem image_cache_claim_false :
    ¬ (∀ (env : ImgEnv) (outImgDir t : String),
        ((env.cached t).isSome = true ∨
          (env.localImage outImgDir t).isSome = true) →
        (workerStep env outImgDir t).2 = 0) := by
  intro h
  exact absurd (h imgEnvC7cx "out/img" "tok" (Or.inl (by decide))) (by decide)

/-- C7 (amended): (1) when picgo is enabled and the token is in the durable
upload cache, or a local file under the token's name exists, no network
fetch happens; (2) a cache hit yields the cached URL directly; (3) an
existing local file (with the cache layer missing or disabled) yields the
file's relative path directly. -/
theorem image_cache_layers (env : ImgEnv) (outImgDir t : String) :
    (((env.picgoEnabled = true ∧ (env.cached t).isSome = true) ∨
        (env.localImage outImgDir t).isSome = true) →
      (workerStep env outImgDir t).2 = 0) ∧
    (∀ url, env.picgoEnabled = true → env.cached t = some url →
      (workerStep env outImgDir t).1 = ⟨t, url, true, false, false⟩) ∧
    (∀ base, env.localImage outImgDir t = some base →
      (env.picgoEnabled = true → env.cached t = none) →
      (workerStep env outImgDir t).1 =
        ⟨t, "./" ++ goBase outImgDir ++ "/" ++ base, false,
          env.picgoEnabled, false⟩) := by
  refine ⟨?_, ?_, ?_⟩
  · rintro (⟨hen, hcs⟩ | hloc)
    · obtain ⟨url, hurl⟩ := Option.isSome_iff_exists.mp hcs
      simp [workerStep, hen, hurl]
    · obtain ⟨base, hbase⟩ := Option.isSome_iff_exists.mp hloc
      rcases hen : env.picgoEnabled <;>
        rcases hc : env.cached t with _ | u <;>
          simp [workerStep, downloadImage, hbase, hen, hc]
  · intro url hen hurl
    simp [workerStep, hen, hurl]
  · intro base hbase hcc
    rcases hen : env.picgoEnabled
    · simp [workerStep, downloadImage, hbase, hen]
    · simp [workerStep, downloadImage, hbase, hen, hcc hen]

theorem image_cache_layers_witness :
    (workerStep imgEnvC7w "out/img" "tok").2 = 0 ∧
    (workerStep imgEnvC7w "out/img" "tok").1 =
      ⟨"tok", "https://cdn/tok.png", true, false, false⟩ := by
  have h := image_cache_layers imgEnvC7w "out/img" "tok"
  exact ⟨h.1 (Or.inl ⟨rfl, by decide⟩), h.2.1 "https://cdn/tok.png" rfl (by decide)⟩

/-! ### C6: deduplication gives one download and one upload per token -/

/-- C6: Each unique token is resolved once: deduplication keeps exactly one
occurrence of every token of the body (first conjunct, for every body); and
for a fresh token (not cached, no local file, fetch succeeds) referenced 5
times with picgo enabled, the pipeline performs exactly one network download
of that token and hands exactly one file to the uploader. -/
theorem image_dedup_single_download_upload
    (env : ImgEnv) (outputDir imageDir t fn : String)
    (henabled : env.picgoEnabled = true)
    (hcached : ∀ s, env.cached s = none)
    (hlocal : env.localImage (filepathJoin outputDir imageDir) t = none)
    (hctx : env.ctxCancelled = false)
    (hfetch : env.fetch t = some fn)
    (hfs : env.fsFail t = false) :
    (∀ (body : List String) (s : String),
      (dedupTokens body).count s = if s ∈ body then 1 else 0) ∧
    (imgSection env outputDir imageDir
        (List.replicate 5 t)).fetchedTokens = [t] ∧
    (imgSection env outputDir imageDir
        (List.replicate 5 t)).uploadAttempts.length = 1 := by
  have hded : dedupTokens (List.replicate 5 t) = [t] :=
    dedupTokens_replicate t 5 (by decide)
  have hdl : downloadImage env t (filepathJoin outputDir imageDir) =
      (some ("./" ++ goBase (filepathJoin outputDir imageDir) ++ "/" ++ t ++
        (if goExt fn = "" then ".png" else goExt fn)), 1) := by
    simp [downloadImage, hlocal, hctx, hfetch, hfs]
  have hw : workerStep env (filepathJoin outputDir imageDir) t =
      (⟨t, "./" ++ goBase (filepathJoin outputDir imageDir) ++ "/" ++ t ++
        (if goExt fn = "" then ".png" else goExt fn), false, true, false⟩, 1) := by
    simp [workerStep, henabled, hcached t, hdl]
  have hsc : ∀ s : String,
      (if s = "" then none else env.cached s) = (none : Option String) := by
    intro s
    by_cases h : s = "" <;> simp [h, hcached s]
  refine ⟨fun body s => dedupTokens_count body s, ?_, ?_⟩
  · simp only [imgSection]
    rw [hded]
    split <;> simp [hw]
  · simp only [imgSection]
    rw [hded]
    simp only [List.map_cons, List.map_nil, List.foldl_cons, List.foldl_nil, hw]
    simp only [collectStep, collectInit]
    simp only [henabled]
    simp [batchUpload, batchUploadOne, hsc]
    rcases env.upload (filepathJoin outputDir
      ("./" ++ goBase (filepathJoin outputDir imageDir) ++ "/" ++ t ++
        (if goExt fn = "" then ".png" else goExt fn))) <;> simp

def imgEnvC6 : ImgEnv :=
  { picgoEnabled := true,
    cached := fun _ => none,
    localImage := fun _ _ => none,
    fetch := fun _ => some "shot.png",
    fsFail := fun _ => false,
    upload := fun _ => some "https://cdn/x.png",
    ctxCancelled := false }

theorem image_dedup_single_download_upload_witness :
    (imgSection imgEnvC6 "out" "img"
        (List.replicate 5 "tok")).fetchedTokens = ["tok"] ∧
    (imgSection imgEnvC6 "out" "img"
        (List.replicate 5 "tok")).uploadAttempts.length = 1 := by
  have h := image_dedup_single_download_upload imgEnvC6 "out" "img" "tok"
    "shot.png" rfl (fun _ => rfl) rfl rfl rfl rfl
  exact ⟨h.2.1, h.2.2⟩

/-! ### C8: failure containment of the image pipeline -/

/-- One collection step only touches the result's own token, and only when
the result is a success. -/
theorem collectStep_lookup (acc : CollectState) (r : WorkerResult)
    (x : String) :
    (collectStep acc r).tokenToLink x =
      if r.err = false ∧ x = r.token then some r.link
      else acc.tokenToLink x := by
  by_cases herr : r.err = true <;> by_cases hx : x = r.token <;>
    simp [collectStep, herr, hx]

/-- The collected map over the deduplicated tokens: a token maps to its
worker link if its worker succeeded, and is absent otherwise. -/
theorem collect_map (env : ImgEnv) (d : String) :
    ∀ (us : List String) (acc : CollectState) (t : String), us.Nodup →
      ((us.map (fun u => (workerStep env d u).1)).foldl
          collectStep acc).tokenToLink t =
        if t ∈ us ∧ (workerStep env d t).1.err = false
        then some (workerStep env d t).1.link
        else acc.tokenToLink t := by
  intro us
  induction us with
  | nil =>
    intro acc t _
    simp
  | cons u us ih =>
    intro acc t hnd
    rw [List.map_cons, List.foldl_cons, ih _ t (List.nodup_cons.mp hnd).2]
    by_cases ht : t = u
    · subst ht
      have htnot : t ∉ us := (List.nodup_cons.mp hnd).1
      rw [collectStep_lookup, workerStep_token]
      by_cases herr : (workerStep env d t).1.err = false <;>
        simp [htnot, herr]
    · rw [collectStep_lookup, workerStep_token]
      simp [ht]

/-- One collection step only queues the result's own (token, link) pair,
and only on success. -/
theorem collectStep_needUpload_mem (acc : CollectState) (r : WorkerResult)
    (pr : String × String) (h : pr ∈ (collectStep acc r).needUpload) :
    pr ∈ acc.needUpload ∨ (pr = (r.token, r.link) ∧ r.err = false) := by
  by_cases herr : r.err = true
  · simp [collectStep, herr] at h
    exact Or.inl h
  · by_cases hfc : r.fromCache = false ∧ r.needUpload = true
    · simp [collectStep, herr, hfc] at h
      rcases h with h | h
      · exact Or.inl h
      · exact Or.inr ⟨h, by simpa using herr⟩
    · simp [collectStep, herr, hfc] at h
      exact Or.inl h

/-- Every queued upload pair belongs to a token whose worker succeeded. -/
theorem collect_needUpload_err (env : ImgEnv) (d : String) :
    ∀ (us : List String) (acc : CollectState) (pr : String × String),
      pr ∈ ((us.map (fun u => (workerStep env d u).1)).foldl
          collectStep acc).needUpload →
      pr ∈ acc.needUpload ∨ (workerStep env d pr.1).1.err = false := by
  intro us
  induction us with
  | nil =>
    intro acc pr h
    simp at h
    exact Or.inl h
  | cons u us ih =>
    intro acc pr h
    rw [List.map_cons, List.foldl_cons] at h
    rcases ih _ pr h with h' | h'
    · rcases collectStep_needUpload_mem _ _ _ h' with h'' | h''
      · exact Or.inl h''
      · right
        obtain ⟨hpr, herr⟩ := h''
        rw [hpr]
        rw [show ((workerStep env d u).1.token, (workerStep env d u).1.link).1 =
          (workerStep env d u).1.token from rfl, workerStep_token]
        exact herr
    · exact Or.inr h'

/-- A batch-upload result entry is keyed by the file handed in. -/
theorem batchUploadOne_fst (env : ImgEnv) (p : String) (pr : String × String)
    (h : pr ∈ (batchUploadOne env p).1.toList) : pr.1 = p := by
  simp only [batchUploadOne] at h
  rcases hc : (if extractTokenFromPath p = "" then none
      else env.cached (extractTokenFromPath p)) with _ | url
  · rw [hc] at h
    rcases hu : env.upload p with _ | u
    · rw [hu] at h
      simp at h
    · rw [hu] at h
      simp at h
      rw [h]
  · rw [hc] at h
    simp at h
    rw [h]

/-- Every batch-upload result entry is keyed by one of the input paths. -/
theorem batchUpload_mem (env : ImgEnv) :
    ∀ (ps : List String) (acc : List (String × String) × List String)
      (pr : String × String),
      pr ∈ (ps.foldl
        (fun a p =>
          let r := batchUploadOne env p
          (a.1 ++ r.1.toList, a.2 ++ r.2)) acc).1 →
      pr ∈ acc.1 ∨ pr.1 ∈ ps := by
  intro ps
  induction ps with
  | nil =>
    intro acc pr h
    exact Or.inl h
  | cons p ps ih =>
    intro acc pr h
    rw [List.foldl_cons] at h
    rcases ih _ pr h with h' | h'
    · rw [List.mem_append] at h'
      rcases h' with h' | h'
      · exact Or.inl h'
      · exact Or.inr (by rw [batchUploadOne_fst env p pr h']; simp)
    · exact Or.inr (List.mem_cons_of_mem _ h')

/-- A key occurring among an association list's keys has a lookup value. -/
theorem lookup_isSome_of_mem_keys :
    ∀ (l : List (String × String)) (k : String),
      k ∈ l.map Prod.fst → (List.lookup k l).isSome = true := by
  intro l
  induction l with
  | nil =>
    intro k h
    simp at h
  | cons p l ih =>
    intro k h
    obtain ⟨k', v⟩ := p
    rw [List.map_cons, List.mem_cons] at h
    by_cases hk : k' = k
    · subst hk
      simp [List.lookup]
    · have h' : k ∈ l.map Prod.fst := by
        rcases h with h | h
        · exact absurd h.symm hk
        · exact h
      have hbeq : (k == k') = false :=
        beq_eq_false_iff_ne.mpr (fun hh => hk hh.symm)
      simp [List.lookup, hbeq, ih k h']

/-- A lookup value comes from the association list's values. -/
theorem lookup_mem_values :
    ∀ (l : List (String × String)) (k v : String),
      List.lookup k l = some v → v ∈ l.map Prod.snd := by
  intro l
  induction l with
  | nil =>
    intro k v h
    simp [List.lookup] at h
  | cons p l ih =>
    intro k v h
    obtain ⟨k', v'⟩ := p
    by_cases hk : k' = k
    · subst hk
      simp [List.lookup] at h
      rw [List.map_cons]
      exact h ▸ List.mem_cons_self _ _
    · have hbeq : (k == k') = false :=
        beq_eq_false_iff_ne.mpr (fun hh => hk hh.symm)
      simp [List.lookup, hbeq] at h
      rw [List.map_cons]
      exact List.mem_cons_of_mem _ (ih k v h)

/-- The picgo URL substitution pass never touches a token that is not the
target of one of its entries. -/
theorem uploadFold_frame (tbp : List (String × String)) :
    ∀ (entries : List (String × String)) (m : String → Option String)
      (t : String),
      (∀ pr ∈ entries, ((List.lookup pr.1 tbp).getD "") ≠ t) →
      (entries.foldl
        (fun m pr => fun x =>
          if x = (List.lookup pr.1 tbp).getD "" then some pr.2 else m x)
        m) t = m t := by
  intro entries
  induction entries with
  | nil =>
    intro m t _
    rfl
  | cons pr entries ih =>
    intro m t hne
    rw [List.foldl_cons]
    rw [ih _ t (fun q hq => hne q (List.mem_cons_of_mem _ hq))]
    simp [Ne.symm (hne pr (List.mem_cons_self _ _))]

/-- The picgo URL substitution pass never removes a resolved token. -/
theorem uploadFold_isSome (tbp : List (String × String)) :
    ∀ (entries : List (String × String)) (m : String → Option String)
      (t : String),
      (m t).isSome = true →
      ((entries.foldl
        (fun m pr => fun x =>
          if x = (List.lookup pr.1 tbp).getD "" then some pr.2 else m x)
        m) t).isSome = true := by
  intro entries
  induction entries with
  | nil =>
    intro m t h
    exact h
  | cons pr entries ih =>
    intro m t h
    rw [List.foldl_cons]
    apply ih
    by_cases hx : t = (List.lookup pr.1 tbp).getD "" <;> simp [hx, h]

/-- The whole picgo upload stage leaves every token outside the upload
queue untouched: every substituted key is the token of some queued pair. -/
theorem uploadStage_frame (env : ImgEnv) (outputDir : String)
    (nu : List (String × String)) (m : String → Option String) (t : String)
    (hne : ∀ pr ∈ nu, pr.1 ≠ t) :
    ((batchUpload env (nu.map (fun pr => filepathJoin outputDir pr.2))).1.foldl
      (fun m pr => fun x =>
        if x = (List.lookup pr.1
            (nu.map (fun pr => (filepathJoin outputDir pr.2, pr.1)))).getD ""
        then some pr.2 else m x)
      m) t = m t := by
  apply uploadFold_frame
  intro pr hpr
  rcases batchUpload_mem env _ ([], []) pr hpr with h0 | h1
  · simp at h0
  · have hk : pr.1 ∈
        (nu.map (fun pr => (filepathJoin outputDir pr.2, pr.1))).map
          Prod.fst := by
      rw [List.map_map]
      exact h1
    obtain ⟨v, hv⟩ := Option.isSome_iff_exists.mp
      (lookup_isSome_of_mem_keys _ _ hk)
    have hvmem := lookup_mem_values _ _ _ hv
    rw [List.map_map] at hvmem
    obtain ⟨q, hq, hqv⟩ := List.mem_map.mp hvmem
    rw [hv]
    intro hvt
    simp at hvt
    exact hne q hq (by rw [show q.1 = v from hqv, hvt])

/-- picgo enabled, nothing cached, download succeeds, upload fails. -/
def imgEnvC8cx : ImgEnv :=
  { picgoEnabled := true,
    cached := fun _ => none,
    localImage := fun _ _ => none,
    fetch := fun _ => some "pic.png",
    fsFail := fun _ => false,
    upload := fun _ => none,
    ctxCancelled := false }

/-- C8: As frozen the claim is FALSE for upload failures: when picgo is
enabled and the upload of a freshly downloaded image fails, its token is
NOT omitted from the final token-to-link map — it stays resolved to the
local file's relative path (an upload was attempted, and the body still
gets a working link). -/
theorem image_upload_failure_not_omitted :
    (imgSection imgEnvC8cx "out" "img" ["tok"]).uploadAttempts ≠ [] ∧
    (imgSection imgEnvC8cx "out" "img" ["tok"]).tokenToLink "tok" =
      some "./img/tok.png" := by
  decide

/-- Two tokens: the fetch of "bad" fails, everything else succeeds. -/
def imgEnvC8w : ImgEnv :=
  { picgoEnabled := false,
    cached := fun _ => none,
    localImage := fun _ _ => none,
    fetch := fun s => if s = "bad" then none else some "p.jpg",
    fsFail := fun _ => false,
    upload := fun _ => none,
    ctxCancelled := false }

/-- C8 (amended): a failed download is logged and its token omitted from
the final token-to-link map; every token whose worker succeeded stays
resolved in the final map (in particular an upload failure leaves the local
link in place rather than dropping the token); and the enclosing document
operation's outcome is independent of all image outcomes — it can fail only
at directory creation or at the file writes. -/
theorem image_failure_containment
    (env : ImgEnv) (outputDir imageDir : String) (imgTokens : List String)
    (mkdirOk writeOk : Bool) :
    (∀ t ∈ imgTokens,
      (workerStep env (filepathJoin outputDir imageDir) t).1.err = true →
      (imgSection env outputDir imageDir imgTokens).tokenToLink t = none) ∧
    (∀ t ∈ imgTokens,
      (workerStep env (filepathJoin outputDir imageDir) t).1.err = false →
      ((imgSection env outputDir imageDir imgTokens).tokenToLink t).isSome
        = true) ∧
    (mkdirOk = true → writeOk = true →
      downloadDocumentModel env outputDir imageDir imgTokens mkdirOk writeOk
        = Except.ok ()) := by
  obtain ⟨hnd, hmem⟩ := dedupTokens_nodup_mem imgTokens
  refine ⟨?_, ?_, ?_⟩
  · intro t htmem herr
    simp only [imgSection]
    split
    · dsimp only
      rw [uploadStage_frame]
      · rw [collect_map env (filepathJoin outputDir imageDir)
          (dedupTokens imgTokens) collectInit t hnd]
        simp [herr, collectInit]
      · intro q hq
        intro heq
        rcases collect_needUpload_err env (filepathJoin outputDir imageDir)
            (dedupTokens imgTokens) collectInit q hq with h0 | h1
        · simp [collectInit] at h0
        · rw [heq] at h1
          rw [herr] at h1
          simp at h1
    · dsimp only
      rw [collect_map env (filepathJoin outputDir imageDir)
        (dedupTokens imgTokens) collectInit t hnd]
      simp [herr, collectInit]
  · intro t htmem herr
    have htus : t ∈ dedupTokens imgTokens := (hmem t).mpr htmem
    simp only [imgSection]
    split
    · dsimp only
      apply uploadFold_isSome
      rw [collect_map env (filepathJoin outputDir imageDir)
        (dedupTokens imgTokens) collectInit t hnd]
      simp [htus, herr]
    · dsimp only
      rw [collect_map env (filepathJoin outputDir imageDir)
        (dedupTokens imgTokens) collectInit t hnd]
      simp [htus, herr]
  · intro h1 h2
    simp [downloadDocumentModel, h1, h2]

theorem image_failure_containment_witness :
    (imgSection imgEnvC8w "out" "img" ["bad", "good"]).tokenToLink "bad"
      = none ∧
    ((imgSection imgEnvC8w "out" "img" ["bad", "good"]).tokenToLink
      "good").isSome = true ∧
    downloadDocumentModel imgEnvC8w "out" "img" ["bad", "good"] true true
      = Except.ok () := by
  have h := image_failure_containment imgEnvC8w "out" "img" ["bad", "good"]
    true true
  exact ⟨h.1 "bad" (by decide) (by decide),
    h.2.1 "good" (by decide) (by decide), h.2.2 rfl rfl⟩

end Feishu2MD
